import Mathlib

/-!
Verification of the selective tree-building markup filter implemented by the
`htmlfilter` and `xmlfilter` packages of the `moraes/sadbox` repository.

The two Go packages consume a stream of markup tokens produced by an external
tokenizer (`exp/html.Tokenizer` resp. `encoding/xml.Decoder`).  We embed the
token stream as a `List Token` followed by a terminal tokenizer error value
(the value `t.Err()` resp. the `RawToken` error that the tokenizer reports once
the list is exhausted).  Attributes and namespace parts of tag names play no
role in any of the filter logic (only `Token.Data` resp. `Name` equality is
ever inspected, and the debug rendering ignores attributes), so tokens carry
only their tag name / character data payload, and `xml.Name` is modelled by its
`Local` string (all inputs considered here have empty `Space` fields).

Go errors created with `fmt.Errorf` are modelled by the inductive
`FilterError`, one constructor per distinct error construction site, carrying
the same payloads that are formatted into the Go error message.
-/

namespace Sadbox

/-- Markup token kinds, as delivered by the HTML tokenizer
(`html.StartTagToken`, `html.SelfClosingTagToken`, `html.EndTagToken`,
`html.TextToken`, with `other` covering `CommentToken`/`DoctypeToken`) and by
the XML decoder (`xml.StartElement`, `xml.EndElement`, `xml.CharData`, with
`other` covering `Comment`/`Directive`/`ProcInst`).  The XML decoder never
yields a `selfClosing` token: its `RawToken` expands `<a/>` into a
`StartElement` immediately followed by an `EndElement`. -/
inductive Token where
  | startTag (name : String)
  | selfClosing (name : String)
  | endTag (name : String)
  | text (content : String)
  | other
  deriving DecidableEq, Repr

/-- Errors returned by the filter.  `tokenizer e` is the underlying
tokenizer's own error (`t.Err()` / the decoder error) passed through;
the other three correspond to the three `fmt.Errorf` sites:
"unclosed tags: %v", "expecting closing tag %q, got %q" and
"unexpected closing tag %q". -/
inductive FilterError where
  | tokenizer (err : String)
  | unclosedTags (stack : List String)
  | mismatchedClosing (expected actual : String)
  | unexpectedClosing (tag : String)
  deriving DecidableEq, Repr

/-- ASCII whitespace, as recognised by Go's `strings.TrimSpace` /
`bytes.TrimSpace` on ASCII input (whitespace beyond ASCII never occurs in any claim):
space, tab, newline, vertical tab, form feed, carriage return. -/
def isSpace (ch : Char) : Bool :=
  ch = ' ' || ch = '\t' || ch = '\n' || ch = Char.ofNat 11 || ch = Char.ofNat 12 || ch = '\r'

/-- Drop leading and trailing whitespace characters from a character list. -/
def trimChars (l : List Char) : List Char :=
  ((l.dropWhile isSpace).reverse.dropWhile isSpace).reverse

/-- Model of Go's `strings.TrimSpace` / `bytes.TrimSpace`. -/
def trimSpace (s : String) : String :=
  String.mk (trimChars s.data)

/-- Model of `htmlfilter.Node`: a token (start tag, self-closing tag or text)
together with the list of filtered children. -/
inductive HNode where
  | mk (token : Token) (list : List HNode)

/-- Model of `htmlfilter.popTag`: removes an expected tag name from the end of
the open-tag stack; errors if the stack is empty or the last entry differs. -/
def popTag (tags : List String) (tag : String) : Except FilterError (List String) :=
  match tags.getLast? with
  | none => .error (.unexpectedClosing tag)
  | some last =>
    if last = tag then .ok tags.dropLast
    else .error (.mismatchedClosing last tag)

/-- Model of the loop of `htmlfilter.TextInTag`.  `stack` is the open-tag
stack (the Go code initialises it to `[startTag]`), `c` the accumulated child
nodes, `toks` the unconsumed token stream and `terr` the error the tokenizer
reports once `toks` is exhausted (`ErrorToken` / `t.Err()`).  The result pairs
the produced node list with the unconsumed remainder of the stream.  The
`fuel` argument makes the recursion structural; `toks.length` fuel always
suffices (`textInTagFuel_eq_loop` below), so `none` is unreachable from the
fuel the wrapper `textInTagLoop` supplies. -/
def textInTagFuel (tagNames : List String) (terr : String) :
    (fuel : Nat) → (stack : List String) → (c : List HNode) → (toks : List Token) →
      Option (Except FilterError (List HNode × List Token))
  | _, [], c, toks => some (.ok (c, toks))
  | _, s :: ss, _, [] => some (.error (.unclosedTags (s :: ss)))
  | 0, _ :: _, _, _ :: _ => none
  | fuel + 1, s :: ss, c, tok :: rest =>
    match tok with
    | .selfClosing name =>
      if name ∈ tagNames then
        textInTagFuel tagNames terr fuel (s :: ss) (c ++ [HNode.mk (.selfClosing name) []]) rest
      else textInTagFuel tagNames terr fuel (s :: ss) c rest
    | .startTag name =>
      if name ∈ tagNames then
        match textInTagFuel tagNames terr fuel [name] [] rest with
        | none => none
        | some (.error e) => some (.error e)
        | some (.ok (list, rest1)) =>
          textInTagFuel tagNames terr fuel (s :: ss) (c ++ [HNode.mk (.startTag name) list]) rest1
      else textInTagFuel tagNames terr fuel (s :: ss ++ [name]) c rest
    | .endTag name =>
      match popTag (s :: ss) name with
      | .error e => some (.error e)
      | .ok stack1 => textInTagFuel tagNames terr fuel stack1 c rest
    | .text content =>
      let d := trimSpace content
      if 0 < d.length then
        textInTagFuel tagNames terr fuel (s :: ss) (c ++ [HNode.mk (.text d) []]) rest
      else textInTagFuel tagNames terr fuel (s :: ss) c rest
    | .other => textInTagFuel tagNames terr fuel (s :: ss) c rest

/-- The `TextInTag` loop: general open-tag stack and accumulator, with the
canonical (always sufficient) fuel supplied and the unreachable out-of-fuel
outcome defaulted away. -/
def textInTagLoop (tagNames stack : List String) (c : List HNode) (toks : List Token)
    (terr : String) : Except FilterError (List HNode × List Token) :=
  (textInTagFuel tagNames terr toks.length stack c toks).getD (.error (.unclosedTags []))

/-- Model of `htmlfilter.TextInTag`: the loop started on stack `[startName]`
with an empty accumulator, exactly as the Go function initialises it. -/
def textInTag (tagNames : List String) (startName : String) (toks : List Token)
    (terr : String) : Except FilterError (List HNode × List Token) :=
  textInTagLoop tagNames [startName] [] toks terr

/-- Model of `htmlfilter.NextStartTag`: skips tokens until a start tag or
self-closing tag whose name is among `tagNames`; returns that token and the
unconsumed remainder.  When the tokenizer reports an error (`ErrorToken`),
returns `t.Err()` unchanged. -/
def nextStartTag (tagNames : List String) :
    (toks : List Token) → (terr : String) → Except FilterError (Token × List Token)
  | [], terr => .error (.tokenizer terr)
  | tok :: rest, terr =>
    match tok with
    | .startTag name =>
      if name ∈ tagNames then .ok (tok, rest) else nextStartTag tagNames rest terr
    | .selfClosing name =>
      if name ∈ tagNames then .ok (tok, rest) else nextStartTag tagNames rest terr
    | _ => nextStartTag tagNames rest terr

/-- The `Data` field of an `html.Token`: the tag name for tag tokens, the
character data for text tokens. -/
def tokenData : Token → String
  | .startTag name => name
  | .selfClosing name => name
  | .endTag name => name
  | .text content => content
  | .other => ""

/-- Model of `htmlfilter.NextTextFilter`: locate the next matched start tag,
then build its filtered child list with `TextInTag`. -/
def nextTextFilter (tagNames : List String) (toks : List Token) (terr : String) :
    Except FilterError HNode :=
  match nextStartTag tagNames toks terr with
  | .error e => .error e
  | .ok (tt, rest) =>
    match textInTag tagNames (tokenData tt) rest terr with
    | .error e => .error e
    | .ok (list, _) => .ok (HNode.mk tt list)

mutual

/-- Model of `htmlfilter.Node.String`: the debug rendering.  The Go method
panics on token kinds that the filter never stores in a node; the model maps
that unreachable default to the empty string. -/
def renderH : HNode → String
  | .mk tok list =>
    match tok with
    | .selfClosing name => "<" ++ name ++ "/>"
    | .startTag name => "<" ++ name ++ ">" ++ renderHList list ++ "</" ++ name ++ ">"
    | .text content => content
    | _ => ""

/-- Concatenated rendering of a list of child nodes. -/
def renderHList : List HNode → String
  | [] => ""
  | x :: xs => renderH x ++ renderHList xs

end

/-- Payload stored in an `xmlfilter.Node`: either an `xml.StartElement`
(modelled by its local name) or the plain string the `CharData` branch of
`parseList` converts trimmed character data into. -/
inductive XTok where
  | startElement (name : String)
  | str (s : String)
  deriving DecidableEq, Repr

/-- Model of `xmlfilter.Node`. -/
inductive XNode where
  | mk (token : XTok) (list : List XNode)

/-- Model of `xmlfilter.popName`; its body is line for line that of
`htmlfilter.popTag`, at `xml.Name` instead of `string`. -/
def popName (names : List String) (name : String) : Except FilterError (List String) :=
  match names.getLast? with
  | none => .error (.unexpectedClosing name)
  | some last =>
    if last = name then .ok names.dropLast
    else .error (.mismatchedClosing last name)

mutual

/-- Model of the loop of `xmlfilter.parseList`.  Identical to the
`TextInTag` loop except that the `StartElement` arm iterates over the whole
name list without breaking after the first match (`startLoopFuel`), and that
the XML decoder never delivers a self-closing token (`RawToken` expands
`<a/>` into a start/end pair), so `selfClosing` falls into the ignored
default arm together with `Comment`/`Directive`/`ProcInst`. -/
def parseListFuel (names : List String) (terr : String) :
    (fuel : Nat) → (stack : List String) → (c : List XNode) → (toks : List Token) →
      Option (Except FilterError (List XNode × List Token))
  | _, [], c, toks => some (.ok (c, toks))
  | _, s :: ss, _, [] => some (.error (.unclosedTags (s :: ss)))
  | 0, _ :: _, _, _ :: _ => none
  | fuel + 1, s :: ss, c, tok :: rest =>
    match tok with
    | .startTag name =>
      match startLoopFuel names terr fuel names name false c rest with
      | none => none
      | some (.error e) => some (.error e)
      | some (.ok ((found, c1), rest1)) =>
        if found then parseListFuel names terr fuel (s :: ss) c1 rest1
        else parseListFuel names terr fuel (s :: ss ++ [name]) c1 rest1
    | .endTag name =>
      match popName (s :: ss) name with
      | .error e => some (.error e)
      | .ok stack1 => parseListFuel names terr fuel stack1 c rest
    | .text content =>
      let b := trimSpace content
      if 0 < b.length then
        parseListFuel names terr fuel (s :: ss) (c ++ [XNode.mk (.str b) []]) rest
      else parseListFuel names terr fuel (s :: ss) c rest
    | _ => parseListFuel names terr fuel (s :: ss) c rest

/-- Model of the `for _, v := range names` loop in the `StartElement` arm of
`xmlfilter.parseList`: every entry `v` of `names` equal to the token's name
sets `found` and triggers one recursive `parseList` call whose resulting
element is appended — there is no `break`, unlike the HTML variant. -/
def startLoopFuel (names : List String) (terr : String) :
    (fuel : Nat) → (vs : List String) → (tag : String) → (found : Bool) → (c : List XNode) →
      (toks : List Token) →
      Option (Except FilterError ((Bool × List XNode) × List Token))
  | _, [], _, found, c, toks => some (.ok ((found, c), toks))
  | 0, _ :: _, _, _, _, _ => none
  | fuel + 1, v :: vs, tag, found, c, toks =>
    if v = tag then
      match parseListFuel names terr fuel [tag] [] toks with
      | none => none
      | some (.error e) => some (.error e)
      | some (.ok (list, rest1)) =>
        startLoopFuel names terr fuel vs tag true (c ++ [XNode.mk (.startElement tag) list]) rest1
    else startLoopFuel names terr fuel vs tag found c toks

end

/-- The `parseList` loop with general accumulator and canonical fuel; the
fuel `(names.length + 2) * toks.length + 1` always suffices
(`parseListFuel_eq_loop` below). -/
def parseListLoop (names stack : List String) (c : List XNode) (toks : List Token)
    (terr : String) : Except FilterError (List XNode × List Token) :=
  (parseListFuel names terr ((names.length + 2) * toks.length + 1) stack c toks).getD
    (.error (.unclosedTags []))

/-- The name-list loop with canonical fuel. -/
def startLoopRun (names vs : List String) (tag : String) (found : Bool) (c : List XNode)
    (toks : List Token) (terr : String) :
    Except FilterError ((Bool × List XNode) × List Token) :=
  (startLoopFuel names terr ((names.length + 2) * toks.length + vs.length + 1)
      vs tag found c toks).getD (.error (.unclosedTags []))

/-- Model of `xmlfilter.parseList` itself: the loop started with an empty
accumulator on the caller-supplied stack. -/
def parseList (names stack : List String) (toks : List Token) (terr : String) :
    Except FilterError (List XNode × List Token) :=
  parseListLoop names stack [] toks terr

/-- Model of `xmlfilter.skipUntilStartElement`: skips tokens until a
`StartElement` whose name is among `names`; decoder errors are returned
unchanged. -/
def skipUntilStartElement (names : List String) :
    (toks : List Token) → (terr : String) → Except FilterError (String × List Token)
  | [], terr => .error (.tokenizer terr)
  | tok :: rest, terr =>
    match tok with
    | .startTag name =>
      if name ∈ names then .ok (name, rest) else skipUntilStartElement names rest terr
    | _ => skipUntilStartElement names rest terr

/-- Model of `xmlfilter.NextNames`. -/
def nextNames (names : List String) (toks : List Token) (terr : String) :
    Except FilterError XNode :=
  match skipUntilStartElement names toks terr with
  | .error e => .error e
  | .ok (name, rest) =>
    match parseList names [name] rest terr with
    | .error e => .error e
    | .ok (list, _) => .ok (XNode.mk (.startElement name) list)

mutual

/-- Model of `xmlfilter.Node.String`: the debug rendering (no attributes,
no namespaces).  The panicking default is modelled by the empty string. -/
def renderX : XNode → String
  | .mk tok list =>
    match tok with
    | .startElement name => "<" ++ name ++ ">" ++ renderXList list ++ "</" ++ name ++ ">"
    | .str s => s

/-- Concatenated rendering of a list of child nodes. -/
def renderXList : List XNode → String
  | [] => ""
  | x :: xs => renderX x ++ renderXList xs

end

/-- Common tree shape used to compare the node trees produced by the two
packages (they store tokens of different Go types but the same structure). -/
inductive Tree where
  | elem (name : String) (children : List Tree)
  | txt (content : String)

mutual

/-- Structural erasure of an `htmlfilter.Node` to the common tree shape. -/
def hToTree : HNode → Tree
  | .mk tok list =>
    match tok with
    | .startTag name => .elem name (hToTreeList list)
    | .selfClosing name => .elem name (hToTreeList list)
    | .endTag name => .elem name (hToTreeList list)
    | .text content => .txt content
    | .other => .txt ""

/-- Erasure of a list of `htmlfilter` nodes. -/
def hToTreeList : List HNode → List Tree
  | [] => []
  | x :: xs => hToTree x :: hToTreeList xs

end

mutual

/-- Structural erasure of an `xmlfilter.Node` to the common tree shape. -/
def xToTree : XNode → Tree
  | .mk tok list =>
    match tok with
    | .startElement name => .elem name (xToTreeList list)
    | .str s => .txt s

/-- Erasure of a list of `xmlfilter` nodes. -/
def xToTreeList : List XNode → List Tree
  | [] => []
  | x :: xs => xToTree x :: xToTreeList xs

end

mutual

/-- Every element node of an `htmlfilter` tree (start-tag or self-closing
token) carries a name belonging to `tagNames`. -/
def elemNamesH (tagNames : List String) : HNode → Bool
  | .mk tok list =>
    (match tok with
     | .startTag name => decide (name ∈ tagNames)
     | .selfClosing name => decide (name ∈ tagNames)
     | _ => true) && elemNamesHList tagNames list

/-- List version of `elemNamesH`. -/
def elemNamesHList (tagNames : List String) : List HNode → Bool
  | [] => true
  | x :: xs => elemNamesH tagNames x && elemNamesHList tagNames xs

end

mutual

/-- Every text node of an `htmlfilter` tree has content that is nonempty and
already whitespace-trimmed (hence in particular not whitespace-only). -/
def textsTrimmedH : HNode → Bool
  | .mk tok list =>
    (match tok with
     | .text content => decide (content ≠ "") && decide (trimSpace content = content)
     | _ => true) && textsTrimmedHList list

/-- List version of `textsTrimmedH`. -/
def textsTrimmedHList : List HNode → Bool
  | [] => true
  | x :: xs => textsTrimmedH x && textsTrimmedHList xs

end

mutual

/-- Every element node of an `xmlfilter` tree carries a name from `names`. -/
def elemNamesX (names : List String) : XNode → Bool
  | .mk tok list =>
    (match tok with
     | .startElement name => decide (name ∈ names)
     | _ => true) && elemNamesXList names list

/-- List version of `elemNamesX`. -/
def elemNamesXList (names : List String) : List XNode → Bool
  | [] => true
  | x :: xs => elemNamesX names x && elemNamesXList names xs

end

mutual

/-- Every text node of an `xmlfilter` tree is nonempty and trimmed. -/
def textsTrimmedX : XNode → Bool
  | .mk tok list =>
    (match tok with
     | .str content => decide (content ≠ "") && decide (trimSpace content = content)
     | _ => true) && textsTrimmedXList list

/-- List version of `textsTrimmedX`. -/
def textsTrimmedXList : List XNode → Bool
  | [] => true
  | x :: xs => textsTrimmedX x && textsTrimmedXList xs

end

/-- The result is not the defensive "unexpected closing tag" error. -/
def notUnexpected {α : Type} : Except FilterError α → Bool
  | .error (.unexpectedClosing _) => false
  | _ => true

/-- The stream contains no self-closing token (true of every stream the XML
decoder can deliver). -/
def noSelfClosing (toks : List Token) : Bool :=
  toks.all fun tok =>
    match tok with
    | .selfClosing _ => false
    | _ => true

/-- No start tag or self-closing tag of the stream has its name in
`tagNames`: the match locator will consume the whole stream. -/
def noTagMatch (tagNames : List String) (toks : List Token) : Bool :=
  toks.all fun tok =>
    match tok with
    | .startTag name => decide (name ∉ tagNames)
    | .selfClosing name => decide (name ∉ tagNames)
    | _ => true

/-- Structural erasure of a builder result of the HTML side. -/
def treesH (r : Except FilterError (List HNode × List Token)) :
    Except FilterError (List Tree × List Token) :=
  r.map fun p => (hToTreeList p.1, p.2)

/-- Structural erasure of a builder result of the XML side. -/
def treesX (r : Except FilterError (List XNode × List Token)) :
    Except FilterError (List Tree × List Token) :=
  r.map fun p => (xToTreeList p.1, p.2)

/-- Token stream the HTML tokenizer delivers for the document
`<p><a name="x"/> Foo <sup><u><b> Bar </b></u></sup> <a href="y"> Baz </a></p>`:
the self-closing `<a/>` is one `SelfClosingTagToken`. -/
def htmlDocToks : List Token :=
  [.startTag "p", .selfClosing "a", .text " Foo ", .startTag "sup", .startTag "u",
   .startTag "b", .text " Bar ", .endTag "b", .endTag "u", .endTag "sup", .text " ",
   .startTag "a", .text " Baz ", .endTag "a", .endTag "p"]

/-- Token stream the XML decoder delivers for the same document: `RawToken`
expands the self-closing `<a/>` into a `StartElement` immediately followed by
an `EndElement`. -/
def xmlDocToks : List Token :=
  [.startTag "p", .startTag "a", .endTag "a", .text " Foo ", .startTag "sup",
   .startTag "u", .startTag "b", .text " Bar ", .endTag "b", .endTag "u", .endTag "sup",
   .text " ", .startTag "a", .text " Baz ", .endTag "a", .endTag "p"]

/-- Stream for a matched `a` nested inside an unmatched `small`:
`<p><small><a>X</a></small></p>`. -/
def nestedMatchToks : List Token :=
  [.startTag "p", .startTag "small", .startTag "a", .text "X", .endTag "a",
   .endTag "small", .endTag "p"]

/-- Stream `<p><p></p></p>` used to separate the two packages on duplicate
tag-name lists. -/
def dupToks : List Token :=
  [.startTag "p", .startTag "p", .endTag "p", .endTag "p"]

/-- Stream for the mismatched-closing example `<p><span>Foo</i></p>`. -/
def mismatchToks : List Token :=
  [.startTag "p", .startTag "span", .text "Foo", .endTag "i", .endTag "p"]

theorem textInTagFuel_mono (tagNames : List String) (terr : String) :
    ∀ fuel stack c toks l rest,
      textInTagFuel tagNames terr fuel stack c toks = some (Except.ok (l, rest)) →
      rest.length ≤ toks.length := by
  intro fuel
  induction fuel with
  | zero =>
    intro stack c toks l rest h
    cases stack with
    | nil =>
      simp only [textInTagFuel, Option.some.injEq, Except.ok.injEq, Prod.mk.injEq] at h
      rw [h.2]
    | cons s ss =>
      cases toks with
      | nil => simp [textInTagFuel] at h
      | cons tok rtoks => simp [textInTagFuel] at h
  | succ fuel ih =>
    intro stack c toks l rest h
    cases stack with
    | nil =>
      simp only [textInTagFuel, Option.some.injEq, Except.ok.injEq, Prod.mk.injEq] at h
      rw [h.2]
    | cons s ss =>
      cases toks with
      | nil => simp [textInTagFuel] at h
      | cons tok rtoks =>
        cases tok with
        | selfClosing name =>
          simp only [textInTagFuel] at h
          split at h
          · exact Nat.le_succ_of_le (ih _ _ _ _ _ h)
          · exact Nat.le_succ_of_le (ih _ _ _ _ _ h)
        | startTag name =>
          simp only [textInTagFuel] at h
          split at h
          · cases hnest : textInTagFuel tagNames terr fuel [name] [] rtoks with
            | none => rw [hnest] at h; simp at h
            | some r =>
              rw [hnest] at h
              cases r with
              | error e => simp at h
              | ok p =>
                obtain ⟨list, rest1⟩ := p
                simp only at h
                have h1 : rest1.length ≤ rtoks.length := ih _ _ _ _ _ hnest
                have h2 : rest.length ≤ rest1.length := ih _ _ _ _ _ h
                exact Nat.le_succ_of_le (Nat.le_trans h2 h1)
          · exact Nat.le_succ_of_le (ih _ _ _ _ _ h)
        | endTag name =>
          simp only [textInTagFuel] at h
          cases hpop : popTag (s :: ss) name with
          | error e => rw [hpop] at h; simp at h
          | ok stack1 =>
            rw [hpop] at h
            simp only at h
            exact Nat.le_succ_of_le (ih _ _ _ _ _ h)
        | text content =>
          simp only [textInTagFuel] at h
          split at h
          · exact Nat.le_succ_of_le (ih _ _ _ _ _ h)
          · exact Nat.le_succ_of_le (ih _ _ _ _ _ h)
        | other =>
          simp only [textInTagFuel] at h
          exact Nat.le_succ_of_le (ih _ _ _ _ _ h)

theorem textInTagLoop_mono (tagNames stack : List String) (c : List HNode) (toks : List Token)
    (terr : String) (l : List HNode) (rest : List Token)
    (h : textInTagLoop tagNames stack c toks terr = .ok (l, rest)) :
    rest.length ≤ toks.length := by
  unfold textInTagLoop at h
  cases hf : textInTagFuel tagNames terr toks.length stack c toks with
  | none => rw [hf] at h; simp at h
  | some r =>
    rw [hf] at h
    simp only [Option.getD_some] at h
    rw [h] at hf
    exact textInTagFuel_mono tagNames terr _ _ _ _ _ _ hf

theorem textInTagFuel_eq_loop (tagNames : List String) (terr : String) :
    ∀ n toks, toks.length ≤ n → ∀ fuel stack c, toks.length ≤ fuel →
      textInTagFuel tagNames terr fuel stack c toks
        = some (textInTagLoop tagNames stack c toks terr) := by
  intro n
  induction n with
  | zero =>
    intro toks hn fuel stack c hfuel
    have : toks = [] := List.length_eq_zero.mp (Nat.le_zero.mp hn)
    subst this
    cases stack with
    | nil => simp [textInTagFuel, textInTagLoop]
    | cons s ss => simp [textInTagFuel, textInTagLoop]
  | succ n ih =>
    intro toks hn fuel stack c hfuel
    cases stack with
    | nil => simp [textInTagFuel, textInTagLoop]
    | cons s ss =>
      cases toks with
      | nil => simp [textInTagFuel, textInTagLoop]
      | cons tok rtoks =>
        obtain ⟨g, rfl⟩ : ∃ g, fuel = g + 1 :=
          ⟨fuel - 1, by simp only [List.length_cons] at hfuel; omega⟩
        have hr : rtoks.length ≤ n := by simp only [List.length_cons] at hn; omega
        have hrg : rtoks.length ≤ g := by simp only [List.length_cons] at hfuel; omega
        cases tok with
        | selfClosing name =>
          by_cases hm : name ∈ tagNames <;>
            [skip; skip] <;>
            · simp only [textInTagLoop, List.length_cons, textInTagFuel, hm, if_true, if_false]
              rw [ih rtoks hr g _ _ hrg, ih rtoks hr rtoks.length _ _ (Nat.le_refl _)]
              simp
        | startTag name =>
          by_cases hm : name ∈ tagNames
          · simp only [textInTagLoop, List.length_cons, textInTagFuel, hm, if_true]
            rw [ih rtoks hr g [name] [] hrg, ih rtoks hr rtoks.length [name] [] (Nat.le_refl _)]
            cases hres : textInTagLoop tagNames [name] [] rtoks terr with
            | error e => simp
            | ok p =>
              obtain ⟨list, rest1⟩ := p
              have hr1 : rest1.length ≤ rtoks.length :=
                textInTagLoop_mono tagNames [name] [] rtoks terr list rest1 hres
              simp only
              rw [ih rest1 (Nat.le_trans hr1 hr) g _ _ (Nat.le_trans hr1 hrg),
                ih rest1 (Nat.le_trans hr1 hr) rtoks.length _ _ hr1]
              simp
          · simp only [textInTagLoop, List.length_cons, textInTagFuel, hm, if_false]
            rw [ih rtoks hr g _ _ hrg, ih rtoks hr rtoks.length _ _ (Nat.le_refl _)]
            simp
        | endTag name =>
          cases hpop : popTag (s :: ss) name with
          | error e => simp [textInTagLoop, textInTagFuel, hpop]
          | ok stack1 =>
            simp only [textInTagLoop, List.length_cons, textInTagFuel, hpop]
            rw [ih rtoks hr g _ _ hrg, ih rtoks hr rtoks.length _ _ (Nat.le_refl _)]
            simp
        | text content =>
          by_cases ht : 0 < (trimSpace content).length <;>
            · simp only [textInTagLoop, List.length_cons, textInTagFuel, ht, if_true, if_false]
              rw [ih rtoks hr g _ _ hrg, ih rtoks hr rtoks.length _ _ (Nat.le_refl _)]
              simp
        | other =>
          simp only [textInTagLoop, List.length_cons, textInTagFuel]
          rw [ih rtoks hr g _ _ hrg, ih rtoks hr rtoks.length _ _ (Nat.le_refl _)]
          simp

theorem textInTagLoop_nil_stack (tagNames : List String) (c : List HNode) (toks : List Token)
    (terr : String) : textInTagLoop tagNames [] c toks terr = .ok (c, toks) := by
  simp [textInTagLoop, textInTagFuel]

theorem textInTagLoop_exhausted (tagNames : List String) (s : String) (ss : List String)
    (c : List HNode) (terr : String) :
    textInTagLoop tagNames (s :: ss) c [] terr = .error (.unclosedTags (s :: ss)) := by
  simp [textInTagLoop, textInTagFuel]

theorem textInTagLoop_selfClosing_mem (tagNames : List String) (s : String) (ss : List String)
    (c : List HNode) (name : String) (rtoks : List Token) (terr : String)
    (hm : name ∈ tagNames) :
    textInTagLoop tagNames (s :: ss) c (.selfClosing name :: rtoks) terr
      = textInTagLoop tagNames (s :: ss) (c ++ [HNode.mk (.selfClosing name) []]) rtoks terr := by
  simp only [textInTagLoop, List.length_cons, textInTagFuel, hm, if_true]

theorem textInTagLoop_selfClosing_not_mem (tagNames : List String) (s : String)
    (ss : List String) (c : List HNode) (name : String) (rtoks : List Token) (terr : String)
    (hm : name ∉ tagNames) :
    textInTagLoop tagNames (s :: ss) c (.selfClosing name :: rtoks) terr
      = textInTagLoop tagNames (s :: ss) c rtoks terr := by
  simp only [textInTagLoop, List.length_cons, textInTagFuel, hm, if_false]

theorem textInTagLoop_start_mem (tagNames : List String) (s : String) (ss : List String)
    (c : List HNode) (name : String) (rtoks : List Token) (terr : String)
    (hm : name ∈ tagNames) :
    textInTagLoop tagNames (s :: ss) c (.startTag name :: rtoks) terr
      = match textInTag tagNames name rtoks terr with
        | .error e => .error e
        | .ok (list, rest1) =>
          textInTagLoop tagNames (s :: ss) (c ++ [HNode.mk (.startTag name) list]) rest1 terr := by
  simp only [textInTagLoop, List.length_cons, textInTagFuel, hm, if_true]
  rw [textInTagFuel_eq_loop tagNames terr rtoks.length rtoks (Nat.le_refl _) rtoks.length
    [name] [] (Nat.le_refl _)]
  cases hres : textInTagLoop tagNames [name] [] rtoks terr with
  | error e => simp only [textInTag, hres, Option.getD_some]
  | ok p =>
    obtain ⟨list, rest1⟩ := p
    have hr1 : rest1.length ≤ rtoks.length := textInTagLoop_mono _ _ _ _ _ _ _ hres
    simp only [textInTag, hres, Option.getD_some]
    rw [textInTagFuel_eq_loop tagNames terr rtoks.length rest1 hr1 rtoks.length _ _ hr1]
    simp [textInTagLoop]

theorem textInTagLoop_start_not_mem (tagNames : List String) (s : String) (ss : List String)
    (c : List HNode) (name : String) (rtoks : List Token) (terr : String)
    (hm : name ∉ tagNames) :
    textInTagLoop tagNames (s :: ss) c (.startTag name :: rtoks) terr
      = textInTagLoop tagNames (s :: ss ++ [name]) c rtoks terr := by
  simp only [textInTagLoop, List.length_cons, textInTagFuel, hm, if_false]

theorem textInTagLoop_end (tagNames : List String) (s : String) (ss : List String)
    (c : List HNode) (name : String) (rtoks : List Token) (terr : String) :
    textInTagLoop tagNames (s :: ss) c (.endTag name :: rtoks) terr
      = match popTag (s :: ss) name with
        | .error e => .error e
        | .ok stack1 => textInTagLoop tagNames stack1 c rtoks terr := by
  cases hpop : popTag (s :: ss) name with
  | error e => simp [textInTagLoop, textInTagFuel, hpop]
  | ok stack1 => simp only [textInTagLoop, List.length_cons, textInTagFuel, hpop]

theorem textInTagLoop_text (tagNames : List String) (s : String) (ss : List String)
    (c : List HNode) (content : String) (rtoks : List Token) (terr : String) :
    textInTagLoop tagNames (s :: ss) c (.text content :: rtoks) terr
      = if 0 < (trimSpace content).length then
          textInTagLoop tagNames (s :: ss) (c ++ [HNode.mk (.text (trimSpace content)) []])
            rtoks terr
        else textInTagLoop tagNames (s :: ss) c rtoks terr := by
  by_cases ht : 0 < (trimSpace content).length <;>
    simp only [textInTagLoop, List.length_cons, textInTagFuel, ht, if_true, if_false]

theorem textInTagLoop_other (tagNames : List String) (s : String) (ss : List String)
    (c : List HNode) (rtoks : List Token) (terr : String) :
    textInTagLoop tagNames (s :: ss) c (.other :: rtoks) terr
      = textInTagLoop tagNames (s :: ss) c rtoks terr := by
  simp only [textInTagLoop, List.length_cons, textInTagFuel]

theorem xmlFuel_mono (names : List String) (terr : String) :
    ∀ fuel,
      (∀ stack c toks l rest,
        parseListFuel names terr fuel stack c toks = some (Except.ok (l, rest)) →
        rest.length ≤ toks.length) ∧
      (∀ vs tag found c toks fc rest,
        startLoopFuel names terr fuel vs tag found c toks = some (Except.ok (fc, rest)) →
        rest.length ≤ toks.length) := by
  intro fuel
  induction fuel with
  | zero =>
    constructor
    · intro stack c toks l rest h
      cases stack with
      | nil =>
        simp only [parseListFuel, Option.some.injEq, Except.ok.injEq, Prod.mk.injEq] at h
        rw [h.2]
      | cons s ss =>
        cases toks with
        | nil => simp [parseListFuel] at h
        | cons tok rtoks => simp [parseListFuel] at h
    · intro vs tag found c toks fc rest h
      cases vs with
      | nil =>
        simp only [startLoopFuel, Option.some.injEq, Except.ok.injEq, Prod.mk.injEq] at h
        rw [h.2]
      | cons v vvs => simp [startLoopFuel] at h
  | succ fuel ih =>
    obtain ⟨ihP, ihQ⟩ := ih
    constructor
    · intro stack c toks l rest h
      cases stack with
      | nil =>
        simp only [parseListFuel, Option.some.injEq, Except.ok.injEq, Prod.mk.injEq] at h
        rw [h.2]
      | cons s ss =>
        cases toks with
        | nil => simp [parseListFuel] at h
        | cons tok rtoks =>
          cases tok with
          | startTag name =>
            simp only [parseListFuel] at h
            cases hsl : startLoopFuel names terr fuel names name false c rtoks with
            | none => rw [hsl] at h; simp at h
            | some r =>
              rw [hsl] at h
              cases r with
              | error e => simp at h
              | ok p =>
                obtain ⟨⟨found, c1⟩, rest1⟩ := p
                have h1 : rest1.length ≤ rtoks.length := ihQ _ _ _ _ _ _ _ hsl
                simp only at h
                cases found with
                | true =>
                  simp only [if_true] at h
                  exact Nat.le_succ_of_le (Nat.le_trans (ihP _ _ _ _ _ h) h1)
                | false =>
                  simp only [Bool.false_eq_true, if_false] at h
                  exact Nat.le_succ_of_le (Nat.le_trans (ihP _ _ _ _ _ h) h1)
          | endTag name =>
            simp only [parseListFuel] at h
            cases hpop : popName (s :: ss) name with
            | error e => rw [hpop] at h; simp at h
            | ok stack1 =>
              rw [hpop] at h
              simp only at h
              exact Nat.le_succ_of_le (ihP _ _ _ _ _ h)
          | text content =>
            simp only [parseListFuel] at h
            split at h
            · exact Nat.le_succ_of_le (ihP _ _ _ _ _ h)
            · exact Nat.le_succ_of_le (ihP _ _ _ _ _ h)
          | selfClosing name =>
            simp only [parseListFuel] at h
            exact Nat.le_succ_of_le (ihP _ _ _ _ _ h)
          | other =>
            simp only [parseListFuel] at h
            exact Nat.le_succ_of_le (ihP _ _ _ _ _ h)
    · intro vs tag found c toks fc rest h
      cases vs with
      | nil =>
        simp only [startLoopFuel, Option.some.injEq, Except.ok.injEq, Prod.mk.injEq] at h
        rw [h.2]
      | cons v vvs =>
        simp only [startLoopFuel] at h
        split at h
        · cases hnest : parseListFuel names terr fuel [tag] [] toks with
          | none => rw [hnest] at h; simp at h
          | some r =>
            rw [hnest] at h
            cases r with
            | error e => simp at h
            | ok p =>
              obtain ⟨list, rest1⟩ := p
              simp only at h
              exact Nat.le_trans (ihQ _ _ _ _ _ _ _ h) (ihP _ _ _ _ _ hnest)
        · exact ihQ _ _ _ _ _ _ _ h

theorem parseListLoop_mono (names stack : List String) (c : List XNode) (toks : List Token)
    (terr : String) (l : List XNode) (rest : List Token)
    (h : parseListLoop names stack c toks terr = .ok (l, rest)) :
    rest.length ≤ toks.length := by
  unfold parseListLoop at h
  cases hf : parseListFuel names terr ((names.length + 2) * toks.length + 1) stack c toks with
  | none => rw [hf] at h; simp at h
  | some r =>
    rw [hf] at h
    simp only [Option.getD_some] at h
    rw [h] at hf
    exact (xmlFuel_mono names terr _).1 _ _ _ _ _ hf

theorem startLoopRun_mono (names vs : List String) (tag : String) (found : Bool)
    (c : List XNode) (toks : List Token) (terr : String) (fc : Bool × List XNode)
    (rest : List Token) (h : startLoopRun names vs tag found c toks terr = .ok (fc, rest)) :
    rest.length ≤ toks.length := by
  unfold startLoopRun at h
  cases hf : startLoopFuel names terr ((names.length + 2) * toks.length + vs.length + 1)
      vs tag found c toks with
  | none => rw [hf] at h; simp at h
  | some r =>
    rw [hf] at h
    simp only [Option.getD_some] at h
    rw [h] at hf
    exact (xmlFuel_mono names terr _).2 _ _ _ _ _ _ _ hf

theorem startLoopFuel_eq_run (names : List String) (terr : String) (N : Nat)
    (hP : ∀ toks : List Token, toks.length ≤ N → ∀ fuel stack c,
      (names.length + 2) * toks.length + 1 ≤ fuel →
      parseListFuel names terr fuel stack c toks
        = some (parseListLoop names stack c toks terr)) :
    ∀ vs toks, toks.length ≤ N → ∀ fuel tag found c,
      (names.length + 2) * toks.length + vs.length + 1 ≤ fuel →
      startLoopFuel names terr fuel vs tag found c toks
        = some (startLoopRun names vs tag found c toks terr) := by
  intro vs
  induction vs with
  | nil =>
    intro toks hN fuel tag found c hfuel
    simp [startLoopFuel, startLoopRun]
  | cons v vvs ihv =>
    intro toks hN fuel tag found c hfuel
    obtain ⟨g, rfl⟩ : ∃ g, fuel = g + 1 := ⟨fuel - 1, by omega⟩
    by_cases hv : v = tag
    · simp only [startLoopRun, List.length_cons, startLoopFuel, hv, if_true]
      rw [hP toks hN g [tag] [] (by simp only [List.length_cons] at hfuel; omega),
          hP toks hN ((names.length + 2) * toks.length + (vvs.length + 1)) [tag] []
            (by omega)]
      cases hres : parseListLoop names [tag] [] toks terr with
      | error e => simp
      | ok p =>
        obtain ⟨list, rest1⟩ := p
        have hr1 : rest1.length ≤ toks.length := parseListLoop_mono _ _ _ _ _ _ _ hres
        have hmul : (names.length + 2) * rest1.length ≤ (names.length + 2) * toks.length :=
          Nat.mul_le_mul_left _ hr1
        simp only
        rw [ihv rest1 (Nat.le_trans hr1 hN) g tag true _
              (by simp only [List.length_cons] at hfuel; omega),
            ihv rest1 (Nat.le_trans hr1 hN)
              ((names.length + 2) * toks.length + (vvs.length + 1)) tag true _ (by omega)]
        simp
    · simp only [startLoopRun, List.length_cons, startLoopFuel, hv, if_false]
      rw [ihv toks hN g tag found c (by simp only [List.length_cons] at hfuel; omega),
          ihv toks hN ((names.length + 2) * toks.length + (vvs.length + 1)) tag found c
            (by omega)]
      simp

theorem parseListFuel_eq_loop (names : List String) (terr : String) :
    ∀ n toks, toks.length ≤ n → ∀ fuel stack c,
      (names.length + 2) * toks.length + 1 ≤ fuel →
      parseListFuel names terr fuel stack c toks
        = some (parseListLoop names stack c toks terr) := by
  intro n
  induction n with
  | zero =>
    intro toks hn fuel stack c hfuel
    have : toks = [] := List.length_eq_zero.mp (Nat.le_zero.mp hn)
    subst this
    cases stack with
    | nil => simp [parseListFuel, parseListLoop]
    | cons s ss => simp [parseListFuel, parseListLoop]
  | succ n ih =>
    intro toks hn fuel stack c hfuel
    cases stack with
    | nil => simp [parseListFuel, parseListLoop]
    | cons s ss =>
      cases toks with
      | nil => simp [parseListFuel, parseListLoop]
      | cons tok rtoks =>
        obtain ⟨g, rfl⟩ : ∃ g, fuel = g + 1 := ⟨fuel - 1, by omega⟩
        have hr : rtoks.length ≤ n := by simp only [List.length_cons] at hn; omega
        have hms : (names.length + 2) * (rtoks.length + 1)
            = (names.length + 2) * rtoks.length + (names.length + 2) := Nat.mul_succ _ _
        simp only [List.length_cons] at hfuel
        cases tok with
        | startTag name =>
          simp only [parseListLoop, List.length_cons, parseListFuel]
          rw [startLoopFuel_eq_run names terr n ih names rtoks hr g name false c (by omega),
              startLoopFuel_eq_run names terr n ih names rtoks hr
                ((names.length + 2) * (rtoks.length + 1)) name false c (by omega)]
          cases hres : startLoopRun names names name false c rtoks terr with
          | error e => simp
          | ok p =>
            obtain ⟨⟨found, c1⟩, rest1⟩ := p
            have hr1 : rest1.length ≤ rtoks.length :=
              startLoopRun_mono _ _ _ _ _ _ _ _ _ hres
            have hmul : (names.length + 2) * rest1.length
                ≤ (names.length + 2) * rtoks.length := Nat.mul_le_mul_left _ hr1
            simp only
            cases found with
            | true =>
              simp only [if_true]
              rw [ih rest1 (Nat.le_trans hr1 hr) g _ _ (by omega),
                  ih rest1 (Nat.le_trans hr1 hr)
                    ((names.length + 2) * (rtoks.length + 1)) _ _ (by omega)]
              simp
            | false =>
              simp only [Bool.false_eq_true, if_false]
              rw [ih rest1 (Nat.le_trans hr1 hr) g _ _ (by omega),
                  ih rest1 (Nat.le_trans hr1 hr)
                    ((names.length + 2) * (rtoks.length + 1)) _ _ (by omega)]
              simp
        | endTag name =>
          cases hpop : popName (s :: ss) name with
          | error e => simp [parseListLoop, parseListFuel, hpop]
          | ok stack1 =>
            simp only [parseListLoop, List.length_cons, parseListFuel, hpop]
            rw [ih rtoks hr g _ _ (by omega),
                ih rtoks hr ((names.length + 2) * (rtoks.length + 1)) _ _ (by omega)]
            simp
        | text content =>
          by_cases ht : 0 < (trimSpace content).length <;>
            · simp only [parseListLoop, List.length_cons, parseListFuel, ht, if_true, if_false]
              rw [ih rtoks hr g _ _ (by omega),
                  ih rtoks hr ((names.length + 2) * (rtoks.length + 1)) _ _ (by omega)]
              simp
        | selfClosing name =>
          simp only [parseListLoop, List.length_cons, parseListFuel]
          rw [ih rtoks hr g _ _ (by omega),
              ih rtoks hr ((names.length + 2) * (rtoks.length + 1)) _ _ (by omega)]
          simp
        | other =>
          simp only [parseListLoop, List.length_cons, parseListFuel]
          rw [ih rtoks hr g _ _ (by omega),
              ih rtoks hr ((names.length + 2) * (rtoks.length + 1)) _ _ (by omega)]
          simp

theorem parseListLoop_nil_stack (names : List String) (c : List XNode) (toks : List Token)
    (terr : String) : parseListLoop names [] c toks terr = .ok (c, toks) := by
  simp [parseListLoop, parseListFuel]

theorem parseListLoop_exhausted (names : List String) (s : String) (ss : List String)
    (c : List XNode) (terr : String) :
    parseListLoop names (s :: ss) c [] terr = .error (.unclosedTags (s :: ss)) := by
  simp [parseListLoop, parseListFuel]

theorem startLoopRun_nil (names : List String) (tag : String) (found : Bool)
    (c : List XNode) (toks : List Token) (terr : String) :
    startLoopRun names [] tag found c toks terr = .ok ((found, c), toks) := by
  simp [startLoopRun, startLoopFuel]

theorem startLoopRun_cons_eq (names vvs : List String) (tag : String) (found : Bool)
    (c : List XNode) (toks : List Token) (terr : String) :
    startLoopRun names (tag :: vvs) tag found c toks terr
      = match parseList names [tag] toks terr with
        | .error e => .error e
        | .ok (list, rest1) =>
          startLoopRun names vvs tag true (c ++ [XNode.mk (.startElement tag) list])
            rest1 terr := by
  simp only [startLoopRun, List.length_cons, startLoopFuel, if_true]
  rw [parseListFuel_eq_loop names terr toks.length toks (Nat.le_refl _)
    ((names.length + 2) * toks.length + (vvs.length + 1)) [tag] [] (by omega)]
  cases hres : parseListLoop names [tag] [] toks terr with
  | error e => simp [parseList, hres]
  | ok p =>
    obtain ⟨list, rest1⟩ := p
    have hr1 : rest1.length ≤ toks.length := parseListLoop_mono _ _ _ _ _ _ _ hres
    have hmul : (names.length + 2) * rest1.length ≤ (names.length + 2) * toks.length :=
      Nat.mul_le_mul_left _ hr1
    simp only [parseList, hres, Option.getD_some]
    rw [startLoopFuel_eq_run names terr toks.length (parseListFuel_eq_loop names terr toks.length)
      vvs rest1 hr1 ((names.length + 2) * toks.length + (vvs.length + 1)) tag true _ (by omega)]
    simp [startLoopRun]

theorem startLoopRun_cons_ne (names vvs : List String) (v tag : String) (found : Bool)
    (c : List XNode) (toks : List Token) (terr : String) (hv : v ≠ tag) :
    startLoopRun names (v :: vvs) tag found c toks terr
      = startLoopRun names vvs tag found c toks terr := by
  simp only [startLoopRun, List.length_cons, startLoopFuel, hv, if_false]
  rw [startLoopFuel_eq_run names terr toks.length (parseListFuel_eq_loop names terr toks.length)
        vvs toks (Nat.le_refl _) ((names.length + 2) * toks.length + (vvs.length + 1)) tag
        found c (by omega),
      startLoopFuel_eq_run names terr toks.length (parseListFuel_eq_loop names terr toks.length)
        vvs toks (Nat.le_refl _) ((names.length + 2) * toks.length + vvs.length + 1) tag
        found c (by omega)]

theorem parseListLoop_start (names : List String) (s : String) (ss : List String)
    (c : List XNode) (name : String) (rtoks : List Token) (terr : String) :
    parseListLoop names (s :: ss) c (.startTag name :: rtoks) terr
      = match startLoopRun names names name false c rtoks terr with
        | .error e => .error e
        | .ok ((found, c1), rest1) =>
          if found then parseListLoop names (s :: ss) c1 rest1 terr
          else parseListLoop names (s :: ss ++ [name]) c1 rest1 terr := by
  have hms : (names.length + 2) * (rtoks.length + 1)
      = (names.length + 2) * rtoks.length + (names.length + 2) := Nat.mul_succ _ _
  simp only [parseListLoop, List.length_cons, parseListFuel]
  rw [startLoopFuel_eq_run names terr rtoks.length (parseListFuel_eq_loop names terr rtoks.length)
    names rtoks (Nat.le_refl _) ((names.length + 2) * (rtoks.length + 1)) name false c (by omega)]
  cases hres : startLoopRun names names name false c rtoks terr with
  | error e => simp
  | ok p =>
    obtain ⟨⟨found, c1⟩, rest1⟩ := p
    have hr1 : rest1.length ≤ rtoks.length := startLoopRun_mono _ _ _ _ _ _ _ _ _ hres
    have hmul : (names.length + 2) * rest1.length ≤ (names.length + 2) * rtoks.length :=
      Nat.mul_le_mul_left _ hr1
    simp only
    cases found with
    | true =>
      simp only [if_true]
      rw [parseListFuel_eq_loop names terr rest1.length rest1 (Nat.le_refl _)
        ((names.length + 2) * (rtoks.length + 1)) _ _ (by omega)]
      simp [parseListLoop]
    | false =>
      simp only [Bool.false_eq_true, if_false]
      rw [parseListFuel_eq_loop names terr rest1.length rest1 (Nat.le_refl _)
        ((names.length + 2) * (rtoks.length + 1)) _ _ (by omega)]
      simp [parseListLoop]

theorem parseListLoop_end (names : List String) (s : String) (ss : List String)
    (c : List XNode) (name : String) (rtoks : List Token) (terr : String) :
    parseListLoop names (s :: ss) c (.endTag name :: rtoks) terr
      = match popName (s :: ss) name with
        | .error e => .error e
        | .ok stack1 => parseListLoop names stack1 c rtoks terr := by
  have hms : (names.length + 2) * (rtoks.length + 1)
      = (names.length + 2) * rtoks.length + (names.length + 2) := Nat.mul_succ _ _
  cases hpop : popName (s :: ss) name with
  | error e => simp [parseListLoop, parseListFuel, hpop]
  | ok stack1 =>
    simp only [parseListLoop, List.length_cons, parseListFuel, hpop]
    rw [parseListFuel_eq_loop names terr rtoks.length rtoks (Nat.le_refl _)
      ((names.length + 2) * (rtoks.length + 1)) _ _ (by omega)]
    simp [parseListLoop]

theorem parseListLoop_text (names : List String) (s : String) (ss : List String)
    (c : List XNode) (content : String) (rtoks : List Token) (terr : String) :
    parseListLoop names (s :: ss) c (.text content :: rtoks) terr
      = if 0 < (trimSpace content).length then
          parseListLoop names (s :: ss) (c ++ [XNode.mk (.str (trimSpace content)) []])
            rtoks terr
        else parseListLoop names (s :: ss) c rtoks terr := by
  have hms : (names.length + 2) * (rtoks.length + 1)
      = (names.length + 2) * rtoks.length + (names.length + 2) := Nat.mul_succ _ _
  by_cases ht : 0 < (trimSpace content).length <;>
    · simp only [parseListLoop, List.length_cons, parseListFuel, ht, if_true, if_false]
      rw [parseListFuel_eq_loop names terr rtoks.length rtoks (Nat.le_refl _)
        ((names.length + 2) * (rtoks.length + 1)) _ _ (by omega)]
      simp [parseListLoop]

theorem parseListLoop_selfClosing (names : List String) (s : String) (ss : List String)
    (c : List XNode) (name : String) (rtoks : List Token) (terr : String) :
    parseListLoop names (s :: ss) c (.selfClosing name :: rtoks) terr
      = parseListLoop names (s :: ss) c rtoks terr := by
  have hms : (names.length + 2) * (rtoks.length + 1)
      = (names.length + 2) * rtoks.length + (names.length + 2) := Nat.mul_succ _ _
  simp only [parseListLoop, List.length_cons, parseListFuel]
  rw [parseListFuel_eq_loop names terr rtoks.length rtoks (Nat.le_refl _)
    ((names.length + 2) * (rtoks.length + 1)) _ _ (by omega)]
  simp [parseListLoop]

theorem parseListLoop_other (names : List String) (s : String) (ss : List String)
    (c : List XNode) (rtoks : List Token) (terr : String) :
    parseListLoop names (s :: ss) c (.other :: rtoks) terr
      = parseListLoop names (s :: ss) c rtoks terr := by
  have hms : (names.length + 2) * (rtoks.length + 1)
      = (names.length + 2) * rtoks.length + (names.length + 2) := Nat.mul_succ _ _
  simp only [parseListLoop, List.length_cons, parseListFuel]
  rw [parseListFuel_eq_loop names terr rtoks.length rtoks (Nat.le_refl _)
    ((names.length + 2) * (rtoks.length + 1)) _ _ (by omega)]
  simp [parseListLoop]

theorem hToTreeList_append (a b : List HNode) :
    hToTreeList (a ++ b) = hToTreeList a ++ hToTreeList b := by
  induction a with
  | nil => simp [hToTreeList]
  | cons x xs ih => simp [hToTreeList, ih]

theorem xToTreeList_append (a b : List XNode) :
    xToTreeList (a ++ b) = xToTreeList a ++ xToTreeList b := by
  induction a with
  | nil => simp [xToTreeList]
  | cons x xs ih => simp [xToTreeList, ih]

theorem elemNamesHList_eq_all (tagNames : List String) (l : List HNode) :
    elemNamesHList tagNames l = true ↔ ∀ x ∈ l, elemNamesH tagNames x = true := by
  induction l with
  | nil => simp [elemNamesHList]
  | cons x xs ih => simp [elemNamesHList, ih]

theorem textsTrimmedHList_eq_all (l : List HNode) :
    textsTrimmedHList l = true ↔ ∀ x ∈ l, textsTrimmedH x = true := by
  induction l with
  | nil => simp [textsTrimmedHList]
  | cons x xs ih => simp [textsTrimmedHList, ih]

theorem elemNamesXList_eq_all (names : List String) (l : List XNode) :
    elemNamesXList names l = true ↔ ∀ x ∈ l, elemNamesX names x = true := by
  induction l with
  | nil => simp [elemNamesXList]
  | cons x xs ih => simp [elemNamesXList, ih]

theorem textsTrimmedXList_eq_all (l : List XNode) :
    textsTrimmedXList l = true ↔ ∀ x ∈ l, textsTrimmedX x = true := by
  induction l with
  | nil => simp [textsTrimmedXList]
  | cons x xs ih => simp [textsTrimmedXList, ih]

theorem dropWhile_dropWhile (p : Char → Bool) (l : List Char) :
    (l.dropWhile p).dropWhile p = l.dropWhile p := by
  induction l with
  | nil => rfl
  | cons a l ih =>
    by_cases h : p a
    · simp [List.dropWhile_cons, h, ih]
    · simp [List.dropWhile_cons, h]

theorem trimChars_idem (l : List Char) : trimChars (trimChars l) = trimChars l := by
  have h1 : (((l.dropWhile isSpace).reverse.dropWhile isSpace).reverse).dropWhile isSpace
      = ((l.dropWhile isSpace).reverse.dropWhile isSpace).reverse := by
    cases hr : ((l.dropWhile isSpace).reverse.dropWhile isSpace).reverse with
    | nil => rfl
    | cons a t =>
      have hlast : ((l.dropWhile isSpace).reverse.dropWhile isSpace).getLast? = some a := by
        have := List.head?_reverse ((l.dropWhile isSpace).reverse.dropWhile isSpace)
        rw [hr] at this
        exact this.symm
      obtain ⟨u, hu⟩ := List.dropWhile_suffix (l := (l.dropWhile isSpace).reverse) isSpace
      have hx : (l.dropWhile isSpace).reverse.getLast? = some a := by
        rw [← hu, List.getLast?_append, hlast]
        rfl
      have hhead : (l.dropWhile isSpace).head? = some a := by
        rw [← List.getLast?_reverse]
        exact hx
      have hfalse : isSpace a = false := by
        have := List.head?_dropWhile_not isSpace l
        rw [hhead] at this
        exact this
      simp [List.dropWhile_cons, hfalse, hr]
  unfold trimChars
  rw [h1, List.reverse_reverse, dropWhile_dropWhile]

theorem trimSpace_idem (s : String) : trimSpace (trimSpace s) = trimSpace s := by
  show String.mk (trimChars (String.mk (trimChars s.data)).data) = String.mk (trimChars s.data)
  rw [show (String.mk (trimChars s.data)).data = trimChars s.data from rfl, trimChars_idem]

theorem ne_empty_of_length_pos {s : String} (h : 0 < s.length) : s ≠ "" := by
  intro he
  rw [he] at h
  simp at h

theorem nextStartTag_ok (tagNames : List String) :
    ∀ toks terr tt rest, nextStartTag tagNames toks terr = .ok (tt, rest) →
      tokenData tt ∈ tagNames ∧
        (tt = Token.startTag (tokenData tt) ∨ tt = Token.selfClosing (tokenData tt)) := by
  intro toks
  induction toks with
  | nil => intro terr tt rest h; simp [nextStartTag] at h
  | cons tok rtoks ih =>
    intro terr tt rest h
    cases tok with
    | startTag name =>
      by_cases hm : name ∈ tagNames
      · simp only [nextStartTag, hm, if_true, Except.ok.injEq, Prod.mk.injEq] at h
        obtain ⟨h1, h2⟩ := h
        subst h1
        exact ⟨hm, Or.inl rfl⟩
      · simp only [nextStartTag, hm, if_false] at h
        exact ih terr tt rest h
    | selfClosing name =>
      by_cases hm : name ∈ tagNames
      · simp only [nextStartTag, hm, if_true, Except.ok.injEq, Prod.mk.injEq] at h
        obtain ⟨h1, h2⟩ := h
        subst h1
        exact ⟨hm, Or.inr rfl⟩
      · simp only [nextStartTag, hm, if_false] at h
        exact ih terr tt rest h
    | endTag name => simp only [nextStartTag] at h; exact ih terr tt rest h
    | text content => simp only [nextStartTag] at h; exact ih terr tt rest h
    | other => simp only [nextStartTag] at h; exact ih terr tt rest h

theorem nextStartTag_noMatch (tagNames : List String) :
    ∀ toks terr, noTagMatch tagNames toks = true →
      nextStartTag tagNames toks terr = .error (.tokenizer terr) := by
  intro toks
  induction toks with
  | nil => intro terr h; rfl
  | cons tok rtoks ih =>
    intro terr h
    simp only [noTagMatch, List.all_cons, Bool.and_eq_true] at h
    obtain ⟨h1, h2⟩ := h
    have h2 : noTagMatch tagNames rtoks = true := h2
    cases tok with
    | startTag name =>
      have hm : name ∉ tagNames := by simpa using h1
      simp only [nextStartTag, hm, if_false]
      exact ih terr h2
    | selfClosing name =>
      have hm : name ∉ tagNames := by simpa using h1
      simp only [nextStartTag, hm, if_false]
      exact ih terr h2
    | endTag name => simp only [nextStartTag]; exact ih terr h2
    | text content => simp only [nextStartTag]; exact ih terr h2
    | other => simp only [nextStartTag]; exact ih terr h2

theorem skipUntil_ok (names : List String) :
    ∀ toks terr name rest, skipUntilStartElement names toks terr = .ok (name, rest) →
      name ∈ names := by
  intro toks
  induction toks with
  | nil => intro terr name rest h; simp [skipUntilStartElement] at h
  | cons tok rtoks ih =>
    intro terr name rest h
    cases tok with
    | startTag tn =>
      by_cases hm : tn ∈ names
      · simp only [skipUntilStartElement, hm, if_true, Except.ok.injEq, Prod.mk.injEq] at h
        obtain ⟨h1, h2⟩ := h
        subst h1
        exact hm
      · simp only [skipUntilStartElement, hm, if_false] at h
        exact ih terr name rest h
    | selfClosing tn => simp only [skipUntilStartElement] at h; exact ih terr name rest h
    | endTag tn => simp only [skipUntilStartElement] at h; exact ih terr name rest h
    | text content => simp only [skipUntilStartElement] at h; exact ih terr name rest h
    | other => simp only [skipUntilStartElement] at h; exact ih terr name rest h

theorem skipUntil_noMatch (names : List String) :
    ∀ toks terr, noTagMatch names toks = true →
      skipUntilStartElement names toks terr = .error (.tokenizer terr) := by
  intro toks
  induction toks with
  | nil => intro terr h; rfl
  | cons tok rtoks ih =>
    intro terr h
    simp only [noTagMatch, List.all_cons, Bool.and_eq_true] at h
    obtain ⟨h1, h2⟩ := h
    have h2 : noTagMatch names rtoks = true := h2
    cases tok with
    | startTag tn =>
      have hm : tn ∉ names := by simpa using h1
      simp only [skipUntilStartElement, hm, if_false]
      exact ih terr h2
    | selfClosing tn => simp only [skipUntilStartElement]; exact ih terr h2
    | endTag tn => simp only [skipUntilStartElement]; exact ih terr h2
    | text content => simp only [skipUntilStartElement]; exact ih terr h2
    | other => simp only [skipUntilStartElement]; exact ih terr h2

theorem locator_equiv (names : List String) :
    ∀ toks terr, noSelfClosing toks = true →
      nextStartTag names toks terr
        = (skipUntilStartElement names toks terr).map fun p => (Token.startTag p.1, p.2) := by
  intro toks
  induction toks with
  | nil => intro terr h; rfl
  | cons tok rtoks ih =>
    intro terr h
    simp only [noSelfClosing, List.all_cons, Bool.and_eq_true] at h
    have h2 : noSelfClosing rtoks = true := h.2
    cases tok with
    | selfClosing name => simp at h
    | startTag name =>
      by_cases hm : name ∈ names <;>
        simp [nextStartTag, skipUntilStartElement, hm, ih terr h2, Except.map]
    | endTag name => simp only [nextStartTag, skipUntilStartElement]; exact ih terr h2
    | text content => simp only [nextStartTag, skipUntilStartElement]; exact ih terr h2
    | other => simp only [nextStartTag, skipUntilStartElement]; exact ih terr h2

theorem textInTagFuel_suffix (tagNames : List String) (terr : String) :
    ∀ fuel stack c toks l rest,
      textInTagFuel tagNames terr fuel stack c toks = some (Except.ok (l, rest)) →
      rest <:+ toks := by
  intro fuel
  induction fuel with
  | zero =>
    intro stack c toks l rest h
    cases stack with
    | nil =>
      simp only [textInTagFuel, Option.some.injEq, Except.ok.injEq, Prod.mk.injEq] at h
      rw [h.2]
    | cons s ss =>
      cases toks with
      | nil => simp [textInTagFuel] at h
      | cons tok rtoks => simp [textInTagFuel] at h
  | succ fuel ih =>
    intro stack c toks l rest h
    cases stack with
    | nil =>
      simp only [textInTagFuel, Option.some.injEq, Except.ok.injEq, Prod.mk.injEq] at h
      rw [h.2]
    | cons s ss =>
      cases toks with
      | nil => simp [textInTagFuel] at h
      | cons tok rtoks =>
        cases tok with
        | selfClosing name =>
          simp only [textInTagFuel] at h
          split at h
          · exact (ih _ _ _ _ _ h).trans (List.suffix_cons _ _)
          · exact (ih _ _ _ _ _ h).trans (List.suffix_cons _ _)
        | startTag name =>
          simp only [textInTagFuel] at h
          split at h
          · cases hnest : textInTagFuel tagNames terr fuel [name] [] rtoks with
            | none => rw [hnest] at h; simp at h
            | some r =>
              rw [hnest] at h
              cases r with
              | error e => simp at h
              | ok p =>
                obtain ⟨list, rest1⟩ := p
                simp only at h
                exact ((ih _ _ _ _ _ h).trans (ih _ _ _ _ _ hnest)).trans
                  (List.suffix_cons _ _)
          · exact (ih _ _ _ _ _ h).trans (List.suffix_cons _ _)
        | endTag name =>
          simp only [textInTagFuel] at h
          cases hpop : popTag (s :: ss) name with
          | error e => rw [hpop] at h; simp at h
          | ok stack1 =>
            rw [hpop] at h
            simp only at h
            exact (ih _ _ _ _ _ h).trans (List.suffix_cons _ _)
        | text content =>
          simp only [textInTagFuel] at h
          split at h
          · exact (ih _ _ _ _ _ h).trans (List.suffix_cons _ _)
          · exact (ih _ _ _ _ _ h).trans (List.suffix_cons _ _)
        | other =>
          simp only [textInTagFuel] at h
          exact (ih _ _ _ _ _ h).trans (List.suffix_cons _ _)

theorem textInTagLoop_suffix (tagNames stack : List String) (c : List HNode)
    (toks : List Token) (terr : String) (l : List HNode) (rest : List Token)
    (h : textInTagLoop tagNames stack c toks terr = .ok (l, rest)) : rest <:+ toks := by
  unfold textInTagLoop at h
  cases hf : textInTagFuel tagNames terr toks.length stack c toks with
  | none => rw [hf] at h; simp at h
  | some r =>
    rw [hf] at h
    simp only [Option.getD_some] at h
    rw [h] at hf
    exact textInTagFuel_suffix tagNames terr _ _ _ _ _ _ hf

theorem xmlFuel_suffix (names : List String) (terr : String) :
    ∀ fuel,
      (∀ stack c toks l rest,
        parseListFuel names terr fuel stack c toks = some (Except.ok (l, rest)) →
        rest <:+ toks) ∧
      (∀ vs tag found c toks fc rest,
        startLoopFuel names terr fuel vs tag found c toks = some (Except.ok (fc, rest)) →
        rest <:+ toks) := by
  intro fuel
  induction fuel with
  | zero =>
    constructor
    · intro stack c toks l rest h
      cases stack with
      | nil =>
        simp only [parseListFuel, Option.some.injEq, Except.ok.injEq, Prod.mk.injEq] at h
        rw [h.2]
      | cons s ss =>
        cases toks with
        | nil => simp [parseListFuel] at h
        | cons tok rtoks => simp [parseListFuel] at h
    · intro vs tag found c toks fc rest h
      cases vs with
      | nil =>
        simp only [startLoopFuel, Option.some.injEq, Except.ok.injEq, Prod.mk.injEq] at h
        rw [h.2]
      | cons v vvs => simp [startLoopFuel] at h
  | succ fuel ih =>
    obtain ⟨ihP, ihQ⟩ := ih
    constructor
    · intro stack c toks l rest h
      cases stack with
      | nil =>
        simp only [parseListFuel, Option.some.injEq, Except.ok.injEq, Prod.mk.injEq] at h
        rw [h.2]
      | cons s ss =>
        cases toks with
        | nil => simp [parseListFuel] at h
        | cons tok rtoks =>
          cases tok with
          | startTag name =>
            simp only [parseListFuel] at h
            cases hsl : startLoopFuel names terr fuel names name false c rtoks with
            | none => rw [hsl] at h; simp at h
            | some r =>
              rw [hsl] at h
              cases r with
              | error e => simp at h
              | ok p =>
                obtain ⟨⟨found, c1⟩, rest1⟩ := p
                have h1 : rest1 <:+ rtoks := ihQ _ _ _ _ _ _ _ hsl
                simp only at h
                cases found with
                | true =>
                  simp only [if_true] at h
                  exact ((ihP _ _ _ _ _ h).trans h1).trans (List.suffix_cons _ _)
                | false =>
                  simp only [Bool.false_eq_true, if_false] at h
                  exact ((ihP _ _ _ _ _ h).trans h1).trans (List.suffix_cons _ _)
          | endTag name =>
            simp only [parseListFuel] at h
            cases hpop : popName (s :: ss) name with
            | error e => rw [hpop] at h; simp at h
            | ok stack1 =>
              rw [hpop] at h
              simp only at h
              exact (ihP _ _ _ _ _ h).trans (List.suffix_cons _ _)
          | text content =>
            simp only [parseListFuel] at h
            split at h
            · exact (ihP _ _ _ _ _ h).trans (List.suffix_cons _ _)
            · exact (ihP _ _ _ _ _ h).trans (List.suffix_cons _ _)
          | selfClosing name =>
            simp only [parseListFuel] at h
            exact (ihP _ _ _ _ _ h).trans (List.suffix_cons _ _)
          | other =>
            simp only [parseListFuel] at h
            exact (ihP _ _ _ _ _ h).trans (List.suffix_cons _ _)
    · intro vs tag found c toks fc rest h
      cases vs with
      | nil =>
        simp only [startLoopFuel, Option.some.injEq, Except.ok.injEq, Prod.mk.injEq] at h
        rw [h.2]
      | cons v vvs =>
        simp only [startLoopFuel] at h
        split at h
        · cases hnest : parseListFuel names terr fuel [tag] [] toks with
          | none => rw [hnest] at h; simp at h
          | some r =>
            rw [hnest] at h
            cases r with
            | error e => simp at h
            | ok p =>
              obtain ⟨list, rest1⟩ := p
              simp only at h
              exact (ihQ _ _ _ _ _ _ _ h).trans (ihP _ _ _ _ _ hnest)
        · exact ihQ _ _ _ _ _ _ _ h

theorem parseListLoop_suffix (names stack : List String) (c : List XNode)
    (toks : List Token) (terr : String) (l : List XNode) (rest : List Token)
    (h : parseListLoop names stack c toks terr = .ok (l, rest)) : rest <:+ toks := by
  unfold parseListLoop at h
  cases hf : parseListFuel names terr ((names.length + 2) * toks.length + 1) stack c toks with
  | none => rw [hf] at h; simp at h
  | some r =>
    rw [hf] at h
    simp only [Option.getD_some] at h
    rw [h] at hf
    exact (xmlFuel_suffix names terr _).1 _ _ _ _ _ hf

theorem noSelfClosing_suffix {rest toks : List Token} (hs : rest <:+ toks)
    (h : noSelfClosing toks = true) : noSelfClosing rest = true := by
  rw [noSelfClosing, List.all_eq_true] at h ⊢
  intro x hx
  exact h x (hs.subset hx)

theorem popTag_eq_popName : ∀ tags tag, popTag tags tag = popName tags tag :=
  fun _ _ => rfl

theorem popTag_cons_shape (s : String) (ss : List String) (name : String) :
    popTag (s :: ss) name
      = if (s :: ss).getLast (List.cons_ne_nil s ss) = name then .ok (s :: ss).dropLast
        else .error (.mismatchedClosing ((s :: ss).getLast (List.cons_ne_nil s ss)) name) := by
  rw [popTag, List.getLast?_eq_getLast (s :: ss) (List.cons_ne_nil s ss)]

theorem textInTagFuel_preserves (tagNames : List String) (terr : String) (p : HNode → Bool)
    (hStart : ∀ name list, name ∈ tagNames → (∀ x ∈ list, p x = true) →
      p (HNode.mk (.startTag name) list) = true)
    (hSelf : ∀ name, name ∈ tagNames → p (HNode.mk (.selfClosing name) []) = true)
    (hText : ∀ content, 0 < (trimSpace content).length →
      p (HNode.mk (.text (trimSpace content)) []) = true) :
    ∀ fuel stack c toks l rest,
      textInTagFuel tagNames terr fuel stack c toks = some (.ok (l, rest)) →
      (∀ x ∈ c, p x = true) → ∀ x ∈ l, p x = true := by
  intro fuel
  induction fuel with
  | zero =>
    intro stack c toks l rest h hc
    cases stack with
    | nil =>
      simp only [textInTagFuel, Option.some.injEq, Except.ok.injEq, Prod.mk.injEq] at h
      exact h.1 ▸ hc
    | cons s ss =>
      cases toks with
      | nil => simp [textInTagFuel] at h
      | cons tok rtoks => simp [textInTagFuel] at h
  | succ fuel ih =>
    intro stack c toks l rest h hc
    cases stack with
    | nil =>
      simp only [textInTagFuel, Option.some.injEq, Except.ok.injEq, Prod.mk.injEq] at h
      exact h.1 ▸ hc
    | cons s ss =>
      cases toks with
      | nil => simp [textInTagFuel] at h
      | cons tok rtoks =>
        cases tok with
        | selfClosing name =>
          by_cases hm : name ∈ tagNames
          · simp only [textInTagFuel, hm, if_true] at h
            refine ih _ _ _ _ _ h ?_
            intro x hx
            rcases List.mem_append.mp hx with hx | hx
            · exact hc x hx
            · simp only [List.mem_singleton] at hx
              subst hx
              exact hSelf name hm
          · simp only [textInTagFuel, hm, if_false] at h
            exact ih _ _ _ _ _ h hc
        | startTag name =>
          by_cases hm : name ∈ tagNames
          · simp only [textInTagFuel, hm, if_true] at h
            cases hnest : textInTagFuel tagNames terr fuel [name] [] rtoks with
            | none => rw [hnest] at h; simp at h
            | some r =>
              rw [hnest] at h
              cases r with
              | error e => simp at h
              | ok q =>
                obtain ⟨list, rest1⟩ := q
                simp only at h
                have hlist : ∀ x ∈ list, p x = true :=
                  ih _ _ _ _ _ hnest (by intro x hx; simp at hx)
                refine ih _ _ _ _ _ h ?_
                intro x hx
                rcases List.mem_append.mp hx with hx | hx
                · exact hc x hx
                · simp only [List.mem_singleton] at hx
                  subst hx
                  exact hStart name list hm hlist
          · simp only [textInTagFuel, hm, if_false] at h
            exact ih _ _ _ _ _ h hc
        | endTag name =>
          simp only [textInTagFuel] at h
          cases hpop : popTag (s :: ss) name with
          | error e => rw [hpop] at h; simp at h
          | ok stack1 =>
            rw [hpop] at h
            simp only at h
            exact ih _ _ _ _ _ h hc
        | text content =>
          by_cases ht : 0 < (trimSpace content).length
          · simp only [textInTagFuel, ht, if_true] at h
            refine ih _ _ _ _ _ h ?_
            intro x hx
            rcases List.mem_append.mp hx with hx | hx
            · exact hc x hx
            · simp only [List.mem_singleton] at hx
              subst hx
              exact hText content ht
          · simp only [textInTagFuel, ht, if_false] at h
            exact ih _ _ _ _ _ h hc
        | other =>
          simp only [textInTagFuel] at h
          exact ih _ _ _ _ _ h hc

theorem textInTagLoop_preserves (tagNames : List String) (terr : String) (p : HNode → Bool)
    (hStart : ∀ name list, name ∈ tagNames → (∀ x ∈ list, p x = true) →
      p (HNode.mk (.startTag name) list) = true)
    (hSelf : ∀ name, name ∈ tagNames → p (HNode.mk (.selfClosing name) []) = true)
    (hText : ∀ content, 0 < (trimSpace content).length →
      p (HNode.mk (.text (trimSpace content)) []) = true)
    (stack : List String) (c : List HNode) (toks : List Token) (l : List HNode)
    (rest : List Token) (h : textInTagLoop tagNames stack c toks terr = .ok (l, rest))
    (hc : ∀ x ∈ c, p x = true) : ∀ x ∈ l, p x = true := by
  unfold textInTagLoop at h
  cases hf : textInTagFuel tagNames terr toks.length stack c toks with
  | none => rw [hf] at h; simp at h
  | some r =>
    rw [hf] at h
    simp only [Option.getD_some] at h
    rw [h] at hf
    exact textInTagFuel_preserves tagNames terr p hStart hSelf hText _ _ _ _ _ _ hf hc

theorem textInTagFuel_notUnexpected (tagNames : List String) (terr : String) :
    ∀ fuel stack c toks r, textInTagFuel tagNames terr fuel stack c toks = some r →
      notUnexpected r = true := by
  intro fuel
  induction fuel with
  | zero =>
    intro stack c toks r h
    cases stack with
    | nil =>
      simp only [textInTagFuel, Option.some.injEq] at h
      rw [← h]
      rfl
    | cons s ss =>
      cases toks with
      | nil =>
        simp only [textInTagFuel, Option.some.injEq] at h
        rw [← h]
        rfl
      | cons tok rtoks => simp [textInTagFuel] at h
  | succ fuel ih =>
    intro stack c toks r h
    cases stack with
    | nil =>
      simp only [textInTagFuel, Option.some.injEq] at h
      rw [← h]
      rfl
    | cons s ss =>
      cases toks with
      | nil =>
        simp only [textInTagFuel, Option.some.injEq] at h
        rw [← h]
        rfl
      | cons tok rtoks =>
        cases tok with
        | selfClosing name =>
          simp only [textInTagFuel] at h
          split at h
          · exact ih _ _ _ _ h
          · exact ih _ _ _ _ h
        | startTag name =>
          simp only [textInTagFuel] at h
          split at h
          · cases hnest : textInTagFuel tagNames terr fuel [name] [] rtoks with
            | none => rw [hnest] at h; simp at h
            | some rr =>
              rw [hnest] at h
              cases rr with
              | error e =>
                simp only [Option.some.injEq] at h
                rw [← h]
                exact ih _ _ _ _ hnest
              | ok q =>
                obtain ⟨list, rest1⟩ := q
                simp only at h
                exact ih _ _ _ _ h
          · exact ih _ _ _ _ h
        | endTag name =>
          simp only [textInTagFuel] at h
          rw [popTag_cons_shape] at h
          by_cases he : (s :: ss).getLast (List.cons_ne_nil s ss) = name
          · rw [if_pos he] at h
            simp only at h
            exact ih _ _ _ _ h
          · rw [if_neg he] at h
            simp only [Option.some.injEq] at h
            rw [← h]
            rfl
        | text content =>
          simp only [textInTagFuel] at h
          split at h
          · exact ih _ _ _ _ h
          · exact ih _ _ _ _ h
        | other =>
          simp only [textInTagFuel] at h
          exact ih _ _ _ _ h

theorem nextStartTag_error (tagNames : List String) :
    ∀ toks terr e, nextStartTag tagNames toks terr = .error e → e = .tokenizer terr := by
  intro toks
  induction toks with
  | nil =>
    intro terr e h
    simp only [nextStartTag, Except.error.injEq] at h
    exact h.symm
  | cons tok rtoks ih =>
    intro terr e h
    cases tok with
    | startTag name =>
      by_cases hm : name ∈ tagNames
      · simp [nextStartTag, hm] at h
      · simp only [nextStartTag, hm, if_false] at h
        exact ih terr e h
    | selfClosing name =>
      by_cases hm : name ∈ tagNames
      · simp [nextStartTag, hm] at h
      · simp only [nextStartTag, hm, if_false] at h
        exact ih terr e h
    | endTag name => simp only [nextStartTag] at h; exact ih terr e h
    | text content => simp only [nextStartTag] at h; exact ih terr e h
    | other => simp only [nextStartTag] at h; exact ih terr e h

theorem nextTextFilter_notUnexpected (tagNames : List String) (toks : List Token)
    (terr : String) : notUnexpected (nextTextFilter tagNames toks terr) = true := by
  unfold nextTextFilter
  cases hloc : nextStartTag tagNames toks terr with
  | error e =>
    rw [nextStartTag_error tagNames toks terr e hloc]
    rfl
  | ok q =>
    obtain ⟨tt, rest⟩ := q
    simp only
    cases hbuild : textInTag tagNames (tokenData tt) rest terr with
    | error e =>
      have hnu : notUnexpected (Except.error (α := List HNode × List Token) e) = true := by
        unfold textInTag textInTagLoop at hbuild
        cases hf : textInTagFuel tagNames terr rest.length [tokenData tt] [] rest with
        | none =>
          rw [hf] at hbuild
          simp only [Option.getD_none] at hbuild
          rw [← hbuild]
          rfl
        | some r =>
          rw [hf] at hbuild
          simp only [Option.getD_some] at hbuild
          rw [hbuild] at hf
          exact textInTagFuel_notUnexpected tagNames terr _ _ _ _ _ hf
      show notUnexpected (Except.error (α := HNode) e) = true
      cases e <;> simp_all [notUnexpected]
    | ok q2 =>
      obtain ⟨list, rest2⟩ := q2
      rfl

theorem popName_cons_shape (s : String) (ss : List String) (name : String) :
    popName (s :: ss) name
      = if (s :: ss).getLast (List.cons_ne_nil s ss) = name then .ok (s :: ss).dropLast
        else .error (.mismatchedClosing ((s :: ss).getLast (List.cons_ne_nil s ss)) name) := by
  rw [popName, List.getLast?_eq_getLast (s :: ss) (List.cons_ne_nil s ss)]

theorem xmlFuel_preserves (names : List String) (terr : String) (q : XNode → Bool)
    (hStart : ∀ name list, name ∈ names → (∀ x ∈ list, q x = true) →
      q (XNode.mk (.startElement name) list) = true)
    (hText : ∀ content, 0 < (trimSpace content).length →
      q (XNode.mk (.str (trimSpace content)) []) = true) :
    ∀ fuel,
      (∀ stack c toks l rest,
        parseListFuel names terr fuel stack c toks = some (.ok (l, rest)) →
        (∀ x ∈ c, q x = true) → ∀ x ∈ l, q x = true) ∧
      (∀ vs tag found c toks fc rest,
        (∀ v ∈ vs, v ∈ names) →
        startLoopFuel names terr fuel vs tag found c toks = some (.ok (fc, rest)) →
        (∀ x ∈ c, q x = true) → ∀ x ∈ fc.2, q x = true) := by
  intro fuel
  induction fuel with
  | zero =>
    constructor
    · intro stack c toks l rest h hc
      cases stack with
      | nil =>
        simp only [parseListFuel, Option.some.injEq, Except.ok.injEq, Prod.mk.injEq] at h
        exact h.1 ▸ hc
      | cons s ss =>
        cases toks with
        | nil => simp [parseListFuel] at h
        | cons tok rtoks => simp [parseListFuel] at h
    · intro vs tag found c toks fc rest hvs h hc
      cases vs with
      | nil =>
        simp only [startLoopFuel, Option.some.injEq, Except.ok.injEq, Prod.mk.injEq] at h
        rw [← h.1]
        exact hc
      | cons v vvs => simp [startLoopFuel] at h
  | succ fuel ih =>
    obtain ⟨ihP, ihQ⟩ := ih
    constructor
    · intro stack c toks l rest h hc
      cases stack with
      | nil =>
        simp only [parseListFuel, Option.some.injEq, Except.ok.injEq, Prod.mk.injEq] at h
        exact h.1 ▸ hc
      | cons s ss =>
        cases toks with
        | nil => simp [parseListFuel] at h
        | cons tok rtoks =>
          cases tok with
          | startTag name =>
            simp only [parseListFuel] at h
            cases hsl : startLoopFuel names terr fuel names name false c rtoks with
            | none => rw [hsl] at h; simp at h
            | some r =>
              rw [hsl] at h
              cases r with
              | error e => simp at h
              | ok p =>
                obtain ⟨⟨found, c1⟩, rest1⟩ := p
                have hc1 : ∀ x ∈ c1, q x = true :=
                  ihQ names name false c rtoks (found, c1) rest1 (fun v hv => hv) hsl hc
                simp only at h
                cases found with
                | true =>
                  simp only [if_true] at h
                  exact ihP _ _ _ _ _ h hc1
                | false =>
                  simp only [Bool.false_eq_true, if_false] at h
                  exact ihP _ _ _ _ _ h hc1
          | endTag name =>
            simp only [parseListFuel] at h
            cases hpop : popName (s :: ss) name with
            | error e => rw [hpop] at h; simp at h
            | ok stack1 =>
              rw [hpop] at h
              simp only at h
              exact ihP _ _ _ _ _ h hc
          | text content =>
            by_cases ht : 0 < (trimSpace content).length
            · simp only [parseListFuel, ht, if_true] at h
              refine ihP _ _ _ _ _ h ?_
              intro x hx
              rcases List.mem_append.mp hx with hx | hx
              · exact hc x hx
              · simp only [List.mem_singleton] at hx
                subst hx
                exact hText content ht
            · simp only [parseListFuel, ht, if_false] at h
              exact ihP _ _ _ _ _ h hc
          | selfClosing name =>
            simp only [parseListFuel] at h
            exact ihP _ _ _ _ _ h hc
          | other =>
            simp only [parseListFuel] at h
            exact ihP _ _ _ _ _ h hc
    · intro vs tag found c toks fc rest hvs h hc
      cases vs with
      | nil =>
        simp only [startLoopFuel, Option.some.injEq, Except.ok.injEq, Prod.mk.injEq] at h
        rw [← h.1]
        exact hc
      | cons v vvs =>
        by_cases hv : v = tag
        · simp only [startLoopFuel, hv, if_true] at h
          cases hnest : parseListFuel names terr fuel [tag] [] toks with
          | none => rw [hnest] at h; simp at h
          | some r =>
            rw [hnest] at h
            cases r with
            | error e => simp at h
            | ok p =>
              obtain ⟨list, rest1⟩ := p
              simp only at h
              have hlist : ∀ x ∈ list, q x = true :=
                ihP _ _ _ _ _ hnest (by intro x hx; simp at hx)
              refine ihQ vvs tag true _ rest1 fc rest (fun u hu => hvs u (List.mem_cons_of_mem v hu)) h ?_
              intro x hx
              rcases List.mem_append.mp hx with hx | hx
              · exact hc x hx
              · simp only [List.mem_singleton] at hx
                subst hx
                exact hStart tag list (hv ▸ hvs v (List.mem_cons_self v vvs)) hlist
        · simp only [startLoopFuel, hv, if_false] at h
          exact ihQ vvs tag found c toks fc rest
            (fun u hu => hvs u (List.mem_cons_of_mem v hu)) h hc

theorem parseListLoop_preserves (names : List String) (terr : String) (q : XNode → Bool)
    (hStart : ∀ name list, name ∈ names → (∀ x ∈ list, q x = true) →
      q (XNode.mk (.startElement name) list) = true)
    (hText : ∀ content, 0 < (trimSpace content).length →
      q (XNode.mk (.str (trimSpace content)) []) = true)
    (stack : List String) (c : List XNode) (toks : List Token) (l : List XNode)
    (rest : List Token) (h : parseListLoop names stack c toks terr = .ok (l, rest))
    (hc : ∀ x ∈ c, q x = true) : ∀ x ∈ l, q x = true := by
  unfold parseListLoop at h
  cases hf : parseListFuel names terr ((names.length + 2) * toks.length + 1) stack c toks with
  | none => rw [hf] at h; simp at h
  | some r =>
    rw [hf] at h
    simp only [Option.getD_some] at h
    rw [h] at hf
    exact (xmlFuel_preserves names terr q hStart hText _).1 _ _ _ _ _ hf hc

theorem notUnexpected_error {α β : Type} (e : FilterError) :
    notUnexpected (Except.error (α := α) e) = notUnexpected (Except.error (α := β) e) := by
  cases e <;> rfl

theorem xmlFuel_notUnexpected (names : List String) (terr : String) :
    ∀ fuel,
      (∀ stack c toks r, parseListFuel names terr fuel stack c toks = some r →
        notUnexpected r = true) ∧
      (∀ vs tag found c toks r, startLoopFuel names terr fuel vs tag found c toks = some r →
        notUnexpected r = true) := by
  intro fuel
  induction fuel with
  | zero =>
    constructor
    · intro stack c toks r h
      cases stack with
      | nil => simp only [parseListFuel, Option.some.injEq] at h; rw [← h]; rfl
      | cons s ss =>
        cases toks with
        | nil => simp only [parseListFuel, Option.some.injEq] at h; rw [← h]; rfl
        | cons tok rtoks => simp [parseListFuel] at h
    · intro vs tag found c toks r h
      cases vs with
      | nil => simp only [startLoopFuel, Option.some.injEq] at h; rw [← h]; rfl
      | cons v vvs => simp [startLoopFuel] at h
  | succ fuel ih =>
    obtain ⟨ihP, ihQ⟩ := ih
    constructor
    · intro stack c toks r h
      cases stack with
      | nil => simp only [parseListFuel, Option.some.injEq] at h; rw [← h]; rfl
      | cons s ss =>
        cases toks with
        | nil => simp only [parseListFuel, Option.some.injEq] at h; rw [← h]; rfl
        | cons tok rtoks =>
          cases tok with
          | startTag name =>
            simp only [parseListFuel] at h
            cases hsl : startLoopFuel names terr fuel names name false c rtoks with
            | none => rw [hsl] at h; simp at h
            | some rr =>
              rw [hsl] at h
              cases rr with
              | error e =>
                simp only [Option.some.injEq] at h
                rw [← h]
                exact (notUnexpected_error e).trans (ihQ _ _ _ _ _ _ hsl)
              | ok p =>
                obtain ⟨⟨found, c1⟩, rest1⟩ := p
                simp only at h
                cases found with
                | true => simp only [if_true] at h; exact ihP _ _ _ _ h
                | false =>
                  simp only [Bool.false_eq_true, if_false] at h
                  exact ihP _ _ _ _ h
          | endTag name =>
            simp only [parseListFuel] at h
            rw [popName_cons_shape] at h
            by_cases he : (s :: ss).getLast (List.cons_ne_nil s ss) = name
            · rw [if_pos he] at h
              simp only at h
              exact ihP _ _ _ _ h
            · rw [if_neg he] at h
              simp only [Option.some.injEq] at h
              rw [← h]
              rfl
          | text content =>
            simp only [parseListFuel] at h
            split at h
            · exact ihP _ _ _ _ h
            · exact ihP _ _ _ _ h
          | selfClosing name =>
            simp only [parseListFuel] at h
            exact ihP _ _ _ _ h
          | other =>
            simp only [parseListFuel] at h
            exact ihP _ _ _ _ h
    · intro vs tag found c toks r h
      cases vs with
      | nil => simp only [startLoopFuel, Option.some.injEq] at h; rw [← h]; rfl
      | cons v vvs =>
        simp only [startLoopFuel] at h
        split at h
        · cases hnest : parseListFuel names terr fuel [tag] [] toks with
          | none => rw [hnest] at h; simp at h
          | some rr =>
            rw [hnest] at h
            cases rr with
            | error e =>
              simp only [Option.some.injEq] at h
              rw [← h]
              exact (notUnexpected_error e).trans (ihP _ _ _ _ hnest)
            | ok p =>
              obtain ⟨list, rest1⟩ := p
              simp only at h
              exact ihQ _ _ _ _ _ _ h
        · exact ihQ _ _ _ _ _ _ h

theorem skipUntil_error (names : List String) :
    ∀ toks terr e, skipUntilStartElement names toks terr = .error e → e = .tokenizer terr := by
  intro toks
  induction toks with
  | nil =>
    intro terr e h
    simp only [skipUntilStartElement, Except.error.injEq] at h
    exact h.symm
  | cons tok rtoks ih =>
    intro terr e h
    cases tok with
    | startTag name =>
      by_cases hm : name ∈ names
      · simp [skipUntilStartElement, hm] at h
      · simp only [skipUntilStartElement, hm, if_false] at h
        exact ih terr e h
    | selfClosing name => simp only [skipUntilStartElement] at h; exact ih terr e h
    | endTag name => simp only [skipUntilStartElement] at h; exact ih terr e h
    | text content => simp only [skipUntilStartElement] at h; exact ih terr e h
    | other => simp only [skipUntilStartElement] at h; exact ih terr e h

theorem nextNames_notUnexpected (names : List String) (toks : List Token)
    (terr : String) : notUnexpected (nextNames names toks terr) = true := by
  unfold nextNames
  cases hloc : skipUntilStartElement names toks terr with
  | error e =>
    rw [skipUntil_error names toks terr e hloc]
    rfl
  | ok q =>
    obtain ⟨name, rest⟩ := q
    simp only
    cases hbuild : parseList names [name] rest terr with
    | error e =>
      have hnu : notUnexpected (Except.error (α := List XNode × List Token) e) = true := by
        unfold parseList parseListLoop at hbuild
        cases hf : parseListFuel names terr ((names.length + 2) * rest.length + 1)
            [name] [] rest with
        | none =>
          rw [hf] at hbuild
          simp only [Option.getD_none] at hbuild
          rw [← hbuild]
          rfl
        | some r =>
          rw [hf] at hbuild
          simp only [Option.getD_some] at hbuild
          rw [hbuild] at hf
          exact (xmlFuel_notUnexpected names terr _).1 _ _ _ _ hf
      show notUnexpected (Except.error (α := XNode) e) = true
      cases e <;> simp_all [notUnexpected]
    | ok q2 =>
      obtain ⟨list, rest2⟩ := q2
      rfl

theorem startLoopRun_not_mem (names : List String) :
    ∀ vs tag found c toks terr, tag ∉ vs →
      startLoopRun names vs tag found c toks terr = .ok ((found, c), toks) := by
  intro vs
  induction vs with
  | nil => intro tag found c toks terr hm; exact startLoopRun_nil names tag found c toks terr
  | cons v vvs ih =>
    intro tag found c toks terr hm
    have hv : v ≠ tag := fun he => hm (he ▸ List.mem_cons_self v vvs)
    rw [startLoopRun_cons_ne names vvs v tag found c toks terr hv]
    exact ih tag found c toks terr (fun hin => hm (List.mem_cons_of_mem v hin))

theorem startLoopRun_nodup_mem (names : List String) :
    ∀ vs tag found c toks terr, vs.Nodup → tag ∈ vs →
      startLoopRun names vs tag found c toks terr
        = match parseList names [tag] toks terr with
          | .error e => .error e
          | .ok (list, rest1) =>
            .ok ((true, c ++ [XNode.mk (.startElement tag) list]), rest1) := by
  intro vs
  induction vs with
  | nil => intro tag found c toks terr hnd hm; simp at hm
  | cons v vvs ih =>
    intro tag found c toks terr hnd hm
    by_cases hv : v = tag
    · subst hv
      rw [startLoopRun_cons_eq]
      cases hres : parseList names [v] toks terr with
      | error e => simp only
      | ok p =>
        obtain ⟨list, rest1⟩ := p
        simp only
        have hnotin : v ∉ vvs := (List.nodup_cons.mp hnd).1
        exact startLoopRun_not_mem names vvs v true _ rest1 terr hnotin
    · have hm2 : tag ∈ vvs := by
        rcases List.mem_cons.mp hm with h1 | h1
        · exact absurd h1.symm hv
        · exact h1
      rw [startLoopRun_cons_ne names vvs v tag found c toks terr hv]
      exact ih tag found c toks terr (List.nodup_cons.mp hnd).2 hm2

theorem loop_equiv (names : List String) (terr : String) (hnd : names.Nodup) :
    ∀ n toks, toks.length ≤ n → noSelfClosing toks = true →
      ∀ stack hc xc, hToTreeList hc = xToTreeList xc →
      treesH (textInTagLoop names stack hc toks terr)
        = treesX (parseListLoop names stack xc toks terr) := by
  intro n
  induction n with
  | zero =>
    intro toks hn hsc stack hc xc hcx
    have : toks = [] := List.length_eq_zero.mp (Nat.le_zero.mp hn)
    subst this
    cases stack with
    | nil =>
      rw [textInTagLoop_nil_stack, parseListLoop_nil_stack]
      simp [treesH, treesX, Except.map, hcx]
    | cons s ss =>
      rw [textInTagLoop_exhausted, parseListLoop_exhausted]
      rfl
  | succ n ih =>
    intro toks hn hsc stack hc xc hcx
    cases stack with
    | nil =>
      rw [textInTagLoop_nil_stack, parseListLoop_nil_stack]
      simp [treesH, treesX, Except.map, hcx]
    | cons s ss =>
      cases toks with
      | nil =>
        rw [textInTagLoop_exhausted, parseListLoop_exhausted]
        rfl
      | cons tok rtoks =>
        have hscr : noSelfClosing rtoks = true := by
          simp only [noSelfClosing, List.all_cons, Bool.and_eq_true] at hsc
          exact hsc.2
        have hrn : rtoks.length ≤ n := by
          simp only [List.length_cons] at hn
          omega
        cases tok with
        | selfClosing name => simp [noSelfClosing] at hsc
        | startTag name =>
          by_cases hm : name ∈ names
          · rw [textInTagLoop_start_mem names s ss hc name rtoks terr hm,
                parseListLoop_start names s ss xc name rtoks terr,
                startLoopRun_nodup_mem names names name false xc rtoks terr hnd hm]
            have hinner : treesH (textInTag names name rtoks terr)
                = treesX (parseList names [name] rtoks terr) :=
              ih rtoks hrn hscr [name] [] [] rfl
            cases hhres : textInTag names name rtoks terr with
            | error e =>
              cases hxres : parseList names [name] rtoks terr with
              | error e2 =>
                rw [hhres, hxres] at hinner
                simp only [treesH, treesX, Except.map, Except.error.injEq] at hinner
                subst hinner
                rfl
              | ok p =>
                rw [hhres, hxres] at hinner
                simp [treesH, treesX, Except.map] at hinner
            | ok p =>
              obtain ⟨list, rest1⟩ := p
              cases hxres : parseList names [name] rtoks terr with
              | error e2 =>
                rw [hhres, hxres] at hinner
                simp [treesH, treesX, Except.map] at hinner
              | ok p2 =>
                obtain ⟨listx, restx⟩ := p2
                rw [hhres, hxres] at hinner
                simp only [treesH, treesX, Except.map, Except.ok.injEq, Prod.mk.injEq]
                  at hinner
                obtain ⟨htre, hrest⟩ := hinner
                subst hrest
                simp only
                have hsuf : rest1 <:+ rtoks :=
                  textInTagLoop_suffix names [name] [] rtoks terr list rest1 hhres
                refine ih rest1 (Nat.le_trans hsuf.length_le hrn)
                  (noSelfClosing_suffix hsuf hscr) (s :: ss) _ _ ?_
                rw [hToTreeList_append, xToTreeList_append, hcx]
                simp only [hToTreeList, xToTreeList, hToTree, xToTree, htre]
          · rw [textInTagLoop_start_not_mem names s ss hc name rtoks terr hm,
                parseListLoop_start names s ss xc name rtoks terr,
                startLoopRun_not_mem names names name false xc rtoks terr hm]
            simp only [Bool.false_eq_true, if_false]
            exact ih rtoks hrn hscr (s :: ss ++ [name]) hc xc hcx
        | endTag name =>
          rw [textInTagLoop_end, parseListLoop_end, ← popTag_eq_popName]
          cases hpop : popTag (s :: ss) name with
          | error e => rfl
          | ok stack1 =>
            simp only
            exact ih rtoks hrn hscr stack1 hc xc hcx
        | text content =>
          rw [textInTagLoop_text, parseListLoop_text]
          by_cases ht : 0 < (trimSpace content).length
          · simp only [ht, if_true]
            refine ih rtoks hrn hscr (s :: ss) _ _ ?_
            rw [hToTreeList_append, xToTreeList_append, hcx]
            simp [hToTreeList, xToTreeList, hToTree, xToTree]
          · simp only [ht, if_false]
            exact ih rtoks hrn hscr (s :: ss) hc xc hcx
        | other =>
          rw [textInTagLoop_other, parseListLoop_other]
          exact ih rtoks hrn hscr (s :: ss) hc xc hcx

theorem skipUntil_suffix (names : List String) :
    ∀ toks terr name rest, skipUntilStartElement names toks terr = .ok (name, rest) →
      rest <:+ toks := by
  intro toks
  induction toks with
  | nil => intro terr name rest h; simp [skipUntilStartElement] at h
  | cons tok rtoks ih =>
    intro terr name rest h
    cases tok with
    | startTag tn =>
      by_cases hm : tn ∈ names
      · simp only [skipUntilStartElement, hm, if_true, Except.ok.injEq, Prod.mk.injEq] at h
        rw [← h.2]
        exact List.suffix_cons _ _
      · simp only [skipUntilStartElement, hm, if_false] at h
        exact (ih terr name rest h).trans (List.suffix_cons _ _)
    | selfClosing tn =>
      simp only [skipUntilStartElement] at h
      exact (ih terr name rest h).trans (List.suffix_cons _ _)
    | endTag tn =>
      simp only [skipUntilStartElement] at h
      exact (ih terr name rest h).trans (List.suffix_cons _ _)
    | text content =>
      simp only [skipUntilStartElement] at h
      exact (ih terr name rest h).trans (List.suffix_cons _ _)
    | other =>
      simp only [skipUntilStartElement] at h
      exact (ih terr name rest h).trans (List.suffix_cons _ _)

/-- Claim C8, counterexample.  For the duplicate tag-name list `["p", "p"]`
and the stream of `<p><p></p></p>`, `NextTextFilter` succeeds with the nested
tree while `NextNames` fails with an unclosed-tags error: the `StartElement`
arm of `xmlfilter.parseList` lacks the `break` of the HTML variant, so the
duplicated name triggers a second recursive call that swallows the outer
closing tag.  The two implementations are therefore not behaviourally
equivalent on duplicate tag-name lists, contrary to the claim. -/
theorem claimC8_counterexample :
    (nextTextFilter ["p", "p"] dupToks "EOF").map hToTree
        = .ok (Tree.elem "p" [Tree.elem "p" []]) ∧
      nextNames ["p", "p"] dupToks "EOF" = .error (.unclosedTags ["p"]) :=
  ⟨rfl, rfl⟩

/-- Claim C8, amended.  For tag-name lists without duplicate entries, and
corresponding token streams (self-closing tokens excluded, since the XML
decoder represents `<a/>` as a start/end pair rather than as a single token),
the two packages are behaviourally equivalent: erased to the common tree
shape, `NextTextFilter` and `NextNames` agree exactly, errors included. -/
theorem claimC8_amended (names : List String) (toks : List Token) (terr : String)
    (hnd : names.Nodup) (hsc : noSelfClosing toks = true) :
    (nextTextFilter names toks terr).map hToTree
      = (nextNames names toks terr).map xToTree := by
  unfold nextTextFilter nextNames
  rw [locator_equiv names toks terr hsc]
  cases hloc : skipUntilStartElement names toks terr with
  | error e => rfl
  | ok p =>
    obtain ⟨name, rest⟩ := p
    have hsuf : rest <:+ toks := skipUntil_suffix names toks terr name rest hloc
    have hinner : treesH (textInTag names name rest terr)
        = treesX (parseList names [name] rest terr) :=
      loop_equiv names terr hnd rest.length rest (Nat.le_refl _)
        (noSelfClosing_suffix hsuf hsc) [name] [] [] rfl
    simp only [Except.map]
    cases hhres : textInTag names name rest terr with
    | error e =>
      cases hxres : parseList names [name] rest terr with
      | error e2 =>
        rw [hhres, hxres] at hinner
        simp only [treesH, treesX, Except.map, Except.error.injEq] at hinner
        subst hinner
        simp [tokenData, hhres, hxres]
      | ok p2 =>
        rw [hhres, hxres] at hinner
        simp [treesH, treesX, Except.map] at hinner
    | ok p1 =>
      obtain ⟨list, rest1⟩ := p1
      cases hxres : parseList names [name] rest terr with
      | error e2 =>
        rw [hhres, hxres] at hinner
        simp [treesH, treesX, Except.map] at hinner
      | ok p2 =>
        obtain ⟨listx, restx⟩ := p2
        rw [hhres, hxres] at hinner
        simp only [treesH, treesX, Except.map, Except.ok.injEq, Prod.mk.injEq] at hinner
        simp only [tokenData, hhres, hxres, hToTree, xToTree, hinner.1]

/-- Claim C8, witness for the amended equivalence at a concrete input. -/
theorem claimC8_amended_witness :
    (nextTextFilter ["p"] [.startTag "p", .text " Hi ", .endTag "p"] "EOF").map hToTree
      = (nextNames ["p"] [.startTag "p", .text " Hi ", .endTag "p"] "EOF").map xToTree :=
  claimC8_amended ["p"] [.startTag "p", .text " Hi ", .endTag "p"] "EOF"
    (by decide) (by decide)

/-- Claim C1, counterexample.  On the claim's document and tag set
`{p, a, sup}`, `NextTextFilter` succeeds, but its debug rendering writes the
matched self-closing `<a name="x"/>` as `<a/>` (the `SelfClosingTagToken`
branch of `Node.String`), not as `<a></a>`: the rendering the claim states
for both functions only holds for `NextNames`. -/
theorem claimC1_counterexample :
    (nextTextFilter ["p", "a", "sup"] htmlDocToks "EOF").map renderH
        = .ok "<p><a/>Foo<sup>Bar</sup><a>Baz</a></p>" ∧
      ("<p><a/>Foo<sup>Bar</sup><a>Baz</a></p>" : String)
        ≠ "<p><a></a>Foo<sup>Bar</sup><a>Baz</a></p>" :=
  ⟨rfl, by decide⟩

/-- Claim C1, amended.  On the claim's document and tag set `{p, a, sup}`,
the first `NextNames` call succeeds and renders exactly to
`<p><a></a>Foo<sup>Bar</sup><a>Baz</a></p>` — the unmatched tags
small/font/u/b are absorbed, their trimmed text appears in document order in
the nearest enclosing matched scope, nested matched tags appear as Element
children — and the first `NextTextFilter` call returns the corresponding
tree, whose rendering differs only in the self-closing form `<a/>`. -/
theorem claimC1_amended :
    (nextNames ["p", "a", "sup"] xmlDocToks "EOF").map renderX
        = .ok "<p><a></a>Foo<sup>Bar</sup><a>Baz</a></p>" ∧
      (nextTextFilter ["p", "a", "sup"] htmlDocToks "EOF").map renderH
        = .ok "<p><a/>Foo<sup>Bar</sup><a>Baz</a></p>" ∧
      (nextTextFilter ["p", "a", "sup"] htmlDocToks "EOF").map hToTree
        = (nextNames ["p", "a", "sup"] xmlDocToks "EOF").map xToTree :=
  ⟨rfl, rfl, rfl⟩

/-- Claim C2, counterexample.  With tag set `{p, a}` and the stream of
`<p><small><a>X</a></small></p>`, the matched `<a>` start tag arrives while
the non-matched tag `small` is on the open-tag stack — and the returned tree
nevertheless contains it as an Element child: the builder checks only the
tag-name set in its `StartTagToken` arm and never consults the stack, so
nested matches are not discarded. -/
theorem claimC2_counterexample :
    nextTextFilter ["p", "a"] nestedMatchToks "EOF"
      = .ok (HNode.mk (.startTag "p")
          [HNode.mk (.startTag "a") [HNode.mk (.text "X") []]]) :=
  rfl

/-- Claim C2, amended.  A matched StartTag is recursed into and its Element
appended to the result regardless of the contents of the open-tag stack: a
non-matched StartTag on the stack only participates in balance checking and
does not suppress matching of tags encountered inside it. -/
theorem claimC2_amended (tagNames : List String) (s : String) (ss : List String)
    (c : List HNode) (name : String) (rtoks : List Token) (terr : String)
    (hm : name ∈ tagNames) :
    textInTagLoop tagNames (s :: ss) c (.startTag name :: rtoks) terr
      = match textInTag tagNames name rtoks terr with
        | .error e => .error e
        | .ok (list, rest1) =>
          textInTagLoop tagNames (s :: ss) (c ++ [HNode.mk (.startTag name) list]) rest1 terr :=
  textInTagLoop_start_mem tagNames s ss c name rtoks terr hm

/-- Claim C2, witness: the amended step equation at the concrete state
reached inside `<p><small>` just before the matched `<a>`. -/
theorem claimC2_amended_witness :
    textInTagLoop ["p", "a"] ["p", "small"] []
        (.startTag "a" :: [.text "X", .endTag "a", .endTag "small", .endTag "p"]) "EOF"
      = match textInTag ["p", "a"] "a" [.text "X", .endTag "a", .endTag "small", .endTag "p"]
          "EOF" with
        | .error e => .error e
        | .ok (list, rest1) =>
          textInTagLoop ["p", "a"] ["p", "small"] ([] ++ [HNode.mk (.startTag "a") list])
            rest1 "EOF" :=
  claimC2_amended ["p", "a"] "p" ["small"] []
    "a" [.text "X", .endTag "a", .endTag "small", .endTag "p"] "EOF" (by decide)

/-- Claim C3, counterexample.  For tag set `{p, a}` and the stream of
`<p><a>` ending mid-document, the unclosed-tags error payload is the
innermost builder's stack `[a]`: it does not list the outer still-open
matched tag `p`, because each recursive `TextInTag` invocation owns a fresh
local stack and the inner error is propagated outward unchanged. -/
theorem claimC3_counterexample :
    nextTextFilter ["p", "a"] [.startTag "p", .startTag "a"] "EOF"
        = .error (.unclosedTags ["a"]) ∧
      "p" ∉ (["a"] : List String) :=
  ⟨rfl, by decide⟩

/-- Claim C3, amended.  Exhaustion while tags are open fails with an
unclosed-tags error carrying the current builder's own (innermost) stack;
in particular, when the stream ends right after a nested matched start tag,
the reported payload is just that inner tag, not the outer matched scopes. -/
theorem claimC3_amended (tagNames : List String) (s : String) (ss : List String)
    (c : List HNode) (tag : String) (terr : String) (hm : tag ∈ tagNames) :
    textInTagLoop tagNames (s :: ss) c [] terr = .error (.unclosedTags (s :: ss)) ∧
      textInTagLoop tagNames (s :: ss) c [Token.startTag tag] terr
        = .error (.unclosedTags [tag]) := by
  constructor
  · exact textInTagLoop_exhausted tagNames s ss c terr
  · rw [textInTagLoop_start_mem tagNames s ss c tag [] terr hm]
    rw [show textInTag tagNames tag [] terr = .error (.unclosedTags [tag]) from
      textInTagLoop_exhausted tagNames tag [] [] terr]

/-- Claim C3, witness: the amended statement at the stack and stream of the
`<p><a>` example. -/
theorem claimC3_amended_witness :
    textInTagLoop ["p", "a"] ["p"] [] [] "EOF" = .error (.unclosedTags ["p"]) ∧
      textInTagLoop ["p", "a"] ["p"] [] [Token.startTag "a"] "EOF"
        = .error (.unclosedTags ["a"]) :=
  claimC3_amended ["p", "a"] "p" [] [] "a" "EOF" (by decide)

/-- Claim C4.  Whenever an EndTag arrives whose name differs from the last
entry of the non-empty open-tag stack, both builders fail with the
mismatched-closing-tag error naming the expected tag (the stack top) and the
actual tag, and no node list is returned; on the spec's example
`<p><span>Foo</i></p>` with tag set `{p}` the error names `span` and `i`. -/
theorem claimC4_mismatch (tagNames : List String) (s : String) (ss : List String)
    (c : List HNode) (xc : List XNode) (name : String) (rtoks : List Token)
    (terr : String) (last : String) (hl : (s :: ss).getLast? = some last)
    (hne : last ≠ name) :
    textInTagLoop tagNames (s :: ss) c (.endTag name :: rtoks) terr
        = .error (.mismatchedClosing last name) ∧
      parseListLoop tagNames (s :: ss) xc (.endTag name :: rtoks) terr
        = .error (.mismatchedClosing last name) ∧
      nextTextFilter ["p"] mismatchToks terr = .error (.mismatchedClosing "span" "i") := by
  have hpop : popTag (s :: ss) name = .error (.mismatchedClosing last name) := by
    rw [popTag, hl]
    simp only [hne, if_false]
  refine ⟨?_, ?_, rfl⟩
  · rw [textInTagLoop_end tagNames s ss c name rtoks terr, hpop]
  · rw [parseListLoop_end tagNames s ss xc name rtoks terr, ← popTag_eq_popName, hpop]

/-- Claim C4, witness: the mismatch statement at the state reached inside
`<p><span>` when `</i>` arrives. -/
theorem claimC4_mismatch_witness :
    textInTagLoop ["p"] ["p", "span"] [HNode.mk (.text "Foo") []]
        (.endTag "i" :: [.endTag "p"]) "EOF" = .error (.mismatchedClosing "span" "i") ∧
      parseListLoop ["p"] ["p", "span"] [XNode.mk (.str "Foo") []]
        (.endTag "i" :: [.endTag "p"]) "EOF" = .error (.mismatchedClosing "span" "i") ∧
      nextTextFilter ["p"] mismatchToks "EOF" = .error (.mismatchedClosing "span" "i") :=
  claimC4_mismatch ["p"] "p" ["span"] [HNode.mk (.text "Foo") []]
    [XNode.mk (.str "Foo") []] "i" [.endTag "p"] "EOF" "span" (by decide) (by decide)

/-- Claim C5, counterexample.  With tag set `{p}`, a stream that delivers
`<p>` and then fails with the tokenizer error `io: boom` while the builder's
stack is open: the error returned to the caller is the unclosed-tags error,
not the tokenizer's own error — the builder's `ErrorToken` arm discards
`t.Err()` and fabricates `unclosed tags` instead of passing it through. -/
theorem claimC5_counterexample :
    nextTextFilter ["p"] [.startTag "p"] "io: boom" = .error (.unclosedTags ["p"]) ∧
      FilterError.unclosedTags ["p"] ≠ FilterError.tokenizer "io: boom" :=
  ⟨rfl, by decide⟩

/-- Claim C5, amended.  The tokenizer's own error is passed through unchanged
while the Match Locator is scanning (both packages); but once the Selective
Tree Builder has open tags, a tokenizer error is replaced by the
unclosed-tags error and the tokenizer's error value is discarded. -/
theorem claimC5_amended (tagNames : List String) (toks : List Token) (terr : String)
    (s : String) (ss : List String) (c : List HNode) (xc : List XNode)
    (hnm : noTagMatch tagNames toks = true) :
    nextTextFilter tagNames toks terr = .error (.tokenizer terr) ∧
      nextNames tagNames toks terr = .error (.tokenizer terr) ∧
      textInTagLoop tagNames (s :: ss) c [] terr = .error (.unclosedTags (s :: ss)) ∧
      parseListLoop tagNames (s :: ss) xc [] terr = .error (.unclosedTags (s :: ss)) := by
  refine ⟨?_, ?_, textInTagLoop_exhausted tagNames s ss c terr,
    parseListLoop_exhausted tagNames s ss xc terr⟩
  · unfold nextTextFilter
    rw [nextStartTag_noMatch tagNames toks terr hnm]
  · unfold nextNames
    rw [skipUntil_noMatch tagNames toks terr hnm]

/-- Claim C5, witness: the amended statement on a stream with no matched tag
and on the open-scope state of the counterexample. -/
theorem claimC5_amended_witness :
    nextTextFilter ["p"] [.startTag "q", .text "x"] "io: boom"
        = .error (.tokenizer "io: boom") ∧
      nextNames ["p"] [.startTag "q", .text "x"] "io: boom"
        = .error (.tokenizer "io: boom") ∧
      textInTagLoop ["p"] ["p"] [] [] "io: boom" = .error (.unclosedTags ["p"]) ∧
      parseListLoop ["p"] ["p"] [] [] "io: boom" = .error (.unclosedTags ["p"]) :=
  claimC5_amended ["p"] [.startTag "q", .text "x"] "io: boom" "p" [] [] [] (by decide)

/-- Claim C6.  Whenever `nextMatch` (either incarnation) succeeds, every
element node of the returned tree — the root and every nested element
reachable through children lists — carries a name from the supplied tag set;
only text nodes may carry other content. -/
theorem claimC6_elemNames (tagNames : List String) (toks : List Token) (terr : String)
    (node : HNode) (xnode : XNode) :
    (nextTextFilter tagNames toks terr = .ok node → elemNamesH tagNames node = true) ∧
      (nextNames tagNames toks terr = .ok xnode → elemNamesX tagNames xnode = true) := by
  constructor
  · intro h
    unfold nextTextFilter at h
    cases hloc : nextStartTag tagNames toks terr with
    | error e => rw [hloc] at h; simp at h
    | ok p =>
      obtain ⟨tt, rest⟩ := p
      rw [hloc] at h
      simp only at h
      cases hbuild : textInTag tagNames (tokenData tt) rest terr with
      | error e => rw [hbuild] at h; simp at h
      | ok p2 =>
        obtain ⟨list, rest2⟩ := p2
        rw [hbuild] at h
        simp only [Except.ok.injEq] at h
        subst h
        obtain ⟨hmem, hshape⟩ := nextStartTag_ok tagNames toks terr tt rest hloc
        have hlist : ∀ x ∈ list, elemNamesH tagNames x = true := by
          refine textInTagLoop_preserves tagNames terr (elemNamesH tagNames) ?_ ?_ ?_
            [tokenData tt] [] rest list rest2 hbuild (by intro x hx; simp at hx)
          · intro nm l hnm hl
            simp only [elemNamesH, Bool.and_eq_true, decide_eq_true_eq]
            exact ⟨hnm, (elemNamesHList_eq_all tagNames l).mpr hl⟩
          · intro nm hnm
            simp only [elemNamesH, elemNamesHList, Bool.and_eq_true, decide_eq_true_eq]
            exact ⟨hnm, trivial⟩
          · intro content ht
            simp [elemNamesH, elemNamesHList]
        rcases hshape with hs | hs <;>
          · rw [hs]
            simp only [elemNamesH, Bool.and_eq_true, decide_eq_true_eq]
            exact ⟨hmem, (elemNamesHList_eq_all tagNames list).mpr hlist⟩
  · intro h
    unfold nextNames at h
    cases hloc : skipUntilStartElement tagNames toks terr with
    | error e => rw [hloc] at h; simp at h
    | ok p =>
      obtain ⟨name, rest⟩ := p
      rw [hloc] at h
      simp only at h
      cases hbuild : parseList tagNames [name] rest terr with
      | error e => rw [hbuild] at h; simp at h
      | ok p2 =>
        obtain ⟨list, rest2⟩ := p2
        rw [hbuild] at h
        simp only [Except.ok.injEq] at h
        subst h
        have hmem : name ∈ tagNames := skipUntil_ok tagNames toks terr name rest hloc
        have hlist : ∀ x ∈ list, elemNamesX tagNames x = true := by
          refine parseListLoop_preserves tagNames terr (elemNamesX tagNames) ?_ ?_
            [name] [] rest list rest2 hbuild (by intro x hx; simp at hx)
          · intro nm l hnm hl
            simp only [elemNamesX, Bool.and_eq_true, decide_eq_true_eq]
            exact ⟨hnm, (elemNamesXList_eq_all tagNames l).mpr hl⟩
          · intro content ht
            simp [elemNamesX, elemNamesXList]
        simp only [elemNamesX, Bool.and_eq_true, decide_eq_true_eq]
        exact ⟨hmem, (elemNamesXList_eq_all tagNames list).mpr hlist⟩

/-- Claim C6, witness: a concrete successful call of each package. -/
theorem claimC6_elemNames_witness :
    elemNamesH ["p"] (HNode.mk (.startTag "p") [HNode.mk (.text "Hi") []]) = true ∧
      elemNamesX ["p"] (XNode.mk (.startElement "p") [XNode.mk (.str "Hi") []]) = true :=
  ⟨(claimC6_elemNames ["p"] [.startTag "p", .text " Hi ", .endTag "p"] "EOF"
      (HNode.mk (.startTag "p") [HNode.mk (.text "Hi") []])
      (XNode.mk (.startElement "p") [XNode.mk (.str "Hi") []])).1 rfl,
   (claimC6_elemNames ["p"] [.startTag "p", .text " Hi ", .endTag "p"] "EOF"
      (HNode.mk (.startTag "p") [HNode.mk (.text "Hi") []])
      (XNode.mk (.startElement "p") [XNode.mk (.str "Hi") []])).2 rfl⟩

/-- Claim C7.  A text token consumed inside a matched scope appends exactly
one text node carrying its whitespace-trimmed content when something
remains, and appends nothing when the content trims to empty; consequently
every text node of any returned tree is nonempty and trimmed (in
particular never whitespace-only). -/
theorem claimC7_text (tagNames : List String) (s : String) (ss : List String)
    (c : List HNode) (xc : List XNode) (content : String) (rtoks : List Token)
    (toks : List Token) (terr : String) (node : HNode) (xnode : XNode) :
    (textInTagLoop tagNames (s :: ss) c (.text content :: rtoks) terr
        = if 0 < (trimSpace content).length then
            textInTagLoop tagNames (s :: ss)
              (c ++ [HNode.mk (.text (trimSpace content)) []]) rtoks terr
          else textInTagLoop tagNames (s :: ss) c rtoks terr) ∧
      (parseListLoop tagNames (s :: ss) xc (.text content :: rtoks) terr
        = if 0 < (trimSpace content).length then
            parseListLoop tagNames (s :: ss)
              (xc ++ [XNode.mk (.str (trimSpace content)) []]) rtoks terr
          else parseListLoop tagNames (s :: ss) xc rtoks terr) ∧
      (nextTextFilter tagNames toks terr = .ok node → textsTrimmedH node = true) ∧
      (nextNames tagNames toks terr = .ok xnode → textsTrimmedX xnode = true) := by
  refine ⟨textInTagLoop_text tagNames s ss c content rtoks terr,
    parseListLoop_text tagNames s ss xc content rtoks terr, ?_, ?_⟩
  · intro h
    unfold nextTextFilter at h
    cases hloc : nextStartTag tagNames toks terr with
    | error e => rw [hloc] at h; simp at h
    | ok p =>
      obtain ⟨tt, rest⟩ := p
      rw [hloc] at h
      simp only at h
      cases hbuild : textInTag tagNames (tokenData tt) rest terr with
      | error e => rw [hbuild] at h; simp at h
      | ok p2 =>
        obtain ⟨list, rest2⟩ := p2
        rw [hbuild] at h
        simp only [Except.ok.injEq] at h
        subst h
        obtain ⟨hmem, hshape⟩ := nextStartTag_ok tagNames toks terr tt rest hloc
        have hlist : ∀ x ∈ list, textsTrimmedH x = true := by
          refine textInTagLoop_preserves tagNames terr textsTrimmedH ?_ ?_ ?_
            [tokenData tt] [] rest list rest2 hbuild (by intro x hx; simp at hx)
          · intro nm l hnm hl
            simp only [textsTrimmedH, Bool.and_eq_true]
            exact ⟨trivial, (textsTrimmedHList_eq_all l).mpr hl⟩
          · intro nm hnm
            simp [textsTrimmedH, textsTrimmedHList]
          · intro ct ht
            simp only [textsTrimmedH, textsTrimmedHList, Bool.and_eq_true,
              decide_eq_true_eq]
            exact ⟨⟨ne_empty_of_length_pos ht, trimSpace_idem ct⟩, trivial⟩
        rcases hshape with hs | hs <;>
          · rw [hs]
            simp only [textsTrimmedH, Bool.and_eq_true]
            exact ⟨trivial, (textsTrimmedHList_eq_all list).mpr hlist⟩
  · intro h
    unfold nextNames at h
    cases hloc : skipUntilStartElement tagNames toks terr with
    | error e => rw [hloc] at h; simp at h
    | ok p =>
      obtain ⟨name, rest⟩ := p
      rw [hloc] at h
      simp only at h
      cases hbuild : parseList tagNames [name] rest terr with
      | error e => rw [hbuild] at h; simp at h
      | ok p2 =>
        obtain ⟨list, rest2⟩ := p2
        rw [hbuild] at h
        simp only [Except.ok.injEq] at h
        subst h
        have hlist : ∀ x ∈ list, textsTrimmedX x = true := by
          refine parseListLoop_preserves tagNames terr textsTrimmedX ?_ ?_
            [name] [] rest list rest2 hbuild (by intro x hx; simp at hx)
          · intro nm l hnm hl
            simp only [textsTrimmedX, Bool.and_eq_true]
            exact ⟨trivial, (textsTrimmedXList_eq_all l).mpr hl⟩
          · intro ct ht
            simp only [textsTrimmedX, textsTrimmedXList, Bool.and_eq_true,
              decide_eq_true_eq]
            exact ⟨⟨ne_empty_of_length_pos ht, trimSpace_idem ct⟩, trivial⟩
        simp only [textsTrimmedX, Bool.and_eq_true]
        exact ⟨trivial, (textsTrimmedXList_eq_all list).mpr hlist⟩

/-- Claim C7, witness: the text step at whitespace-only and mixed content,
and the tree invariant on a concrete successful call. -/
theorem claimC7_text_witness :
    (textInTagLoop ["p"] ["p"] [] [.text " Hi ", .endTag "p"] "EOF"
        = if 0 < (trimSpace " Hi ").length then
            textInTagLoop ["p"] ["p"] ([] ++ [HNode.mk (.text (trimSpace " Hi ")) []])
              [.endTag "p"] "EOF"
          else textInTagLoop ["p"] ["p"] [] [.endTag "p"] "EOF") ∧
      textsTrimmedH (HNode.mk (.startTag "p") [HNode.mk (.text "Hi") []]) = true :=
  ⟨(claimC7_text ["p"] "p" [] [] [] " Hi " [.endTag "p"]
      [.startTag "p", .text " Hi ", .endTag "p"] "EOF"
      (HNode.mk (.startTag "p") [HNode.mk (.text "Hi") []])
      (XNode.mk (.startElement "p") [XNode.mk (.str "Hi") []])).1,
   (claimC7_text ["p"] "p" [] [] [] " Hi " [.endTag "p"]
      [.startTag "p", .text " Hi ", .endTag "p"] "EOF"
      (HNode.mk (.startTag "p") [HNode.mk (.text "Hi") []])
      (XNode.mk (.startElement "p") [XNode.mk (.str "Hi") []])).2.2.1 rfl⟩

/-- Claim C9.  The "unexpected closing tag" branch exists in
`popTag`/`popName` and fires on an empty stack, but it is unreachable from
the builders: their loops run only while the stack is non-empty, so every
pop happens on a non-empty stack and neither `NextTextFilter` nor
`NextNames` can ever return that error. -/
theorem claimC9_unexpectedClosing (tagNames : List String) (toks : List Token)
    (terr : String) (tag : String) :
    popTag [] tag = .error (.unexpectedClosing tag) ∧
      popName [] tag = .error (.unexpectedClosing tag) ∧
      notUnexpected (nextTextFilter tagNames toks terr) = true ∧
      notUnexpected (nextNames tagNames toks terr) = true :=
  ⟨rfl, rfl, nextTextFilter_notUnexpected tagNames toks terr,
    nextNames_notUnexpected tagNames toks terr⟩

/-- Claim C10.  In `htmlfilter`, a self-closing token outside the tag set has
no observable effect: no node is appended, the open-tag stack is untouched
(so it can never contribute to a mismatched-closing or unclosed-tags error);
a matched self-closing token is appended as an element with no children,
likewise without touching the stack and without recursing. -/
theorem claimC10_selfClosing (tagNames : List String) (s : String) (ss : List String)
    (c : List HNode) (name : String) (rtoks : List Token) (terr : String) :
    (name ∉ tagNames →
      textInTagLoop tagNames (s :: ss) c (.selfClosing name :: rtoks) terr
        = textInTagLoop tagNames (s :: ss) c rtoks terr) ∧
      (name ∈ tagNames →
        textInTagLoop tagNames (s :: ss) c (.selfClosing name :: rtoks) terr
          = textInTagLoop tagNames (s :: ss) (c ++ [HNode.mk (.selfClosing name) []])
              rtoks terr) :=
  ⟨textInTagLoop_selfClosing_not_mem tagNames s ss c name rtoks terr,
   textInTagLoop_selfClosing_mem tagNames s ss c name rtoks terr⟩

/-- Claim C10, witness: both branches at concrete inputs. -/
theorem claimC10_selfClosing_witness :
    textInTagLoop ["p"] ["p"] [] [.selfClosing "q"] "EOF"
        = textInTagLoop ["p"] ["p"] [] [] "EOF" ∧
      textInTagLoop ["p"] ["p"] [] [.selfClosing "p"] "EOF"
        = textInTagLoop ["p"] ["p"] ([] ++ [HNode.mk (.selfClosing "p") []]) [] "EOF" :=
  ⟨(claimC10_selfClosing ["p"] "p" [] [] "q" [] "EOF").1 (by decide),
   (claimC10_selfClosing ["p"] "p" [] [] "p" [] "EOF").2 (by decide)⟩

end Sadbox

